import Mathlib

/-!
# RadClipboard

A shallow embedding of `src/RadClipboard.cpp`: the capture of a clipboard
snapshot (`OnClipboardUpdate`), the history menu and restore (`OnHotKey`), and
the preview (`OnDraw`) with its file-drop walk and its hex dump, followed by the
properties proved about them.

Conventions of the embedding.
* A memory block is the list of its bytes, each a natural number; a 16-bit or
  32-bit field is assembled from them little-endian. Reading outside the block
  is undefined behaviour in the source and `none` here.
* Format ids, offsets and counters are natural numbers: no computation of the
  program on them leaves the range of its machine type for the blocks and
  histories considered.
* `std::vector` is `List`; `std::set<UINT>` is a `List UINT` used through
  `contains` and `List.insert` only.
-/

namespace RadClipboard

/-! ## Platform types and constants -/

abbrev UINT := Nat

abbrev BYTE := Nat

/-- Character code unit of a `TCHAR` string (the program is built for 16-bit
`TCHAR`, see the `LPWSTR` argument given to `TEXT("%.50s")`). -/
abbrev TCHAR := Nat

/-! The standard clipboard format ids are declared by the platform header
`WinUser.h`, which is not part of `src/`; the values are the platform's. -/

abbrev CF_TEXT : UINT := 1
abbrev CF_BITMAP : UINT := 2
abbrev CF_METAFILEPICT : UINT := 3
abbrev CF_OEMTEXT : UINT := 7
abbrev CF_DIB : UINT := 8
abbrev CF_PALETTE : UINT := 9
abbrev CF_UNICODETEXT : UINT := 13
abbrev CF_ENHMETAFILE : UINT := 14
abbrev CF_HDROP : UINT := 15
abbrev CF_LOCALE : UINT := 16
abbrev CF_DIBV5 : UINT := 17
abbrev CF_MAX : UINT := 18

/-- The `BITMAP` fields that `GetObject` reports and the label prints. -/
structure BITMAP where
  bmWidth : Int
  bmHeight : Int
  bmBitsPixel : Int
  deriving DecidableEq, Repr

/-- A `HANDLE` as the program meets it: `NULL`, a global memory block (its
bytes; `GlobalSize` is their number), a GDI bitmap, or another object that is
not a memory block (a metafile, a palette). -/
inductive HANDLE where
  | NULL
  | global (bytes : List BYTE)
  | bitmap (bm : BITMAP)
  | object
  deriving DecidableEq, Repr

/-- The source's `struct HistItem`. -/
structure HistItem where
  uFormat : UINT
  hData : HANDLE
  deriving DecidableEq, Repr

/-- The members of `class RadClipboardViewerWnd`. -/
structure RadClipboardViewerWnd where
  m_formats : List UINT
  m_uFormat : UINT
  m_text : List TCHAR
  m_history : List (List HistItem)
  deriving DecidableEq, Repr

/-! ## Capture: `Duplicate` and `OnClipboardUpdate` -/

/-- The template `contains(const std::set<T>&, const U&)`. -/
def contains (s : List UINT) (t : UINT) : Bool :=
  decide (t ∈ s)

/-- Platform `GlobalSize`: the size of a memory block, 0 for a handle that is
not a memory block. -/
def GlobalSize : HANDLE → Nat
  | HANDLE.global bytes => bytes.length
  | _ => 0

/-- The bytes `memcpy` reads through `GlobalLock`. -/
def lockedBytes : HANDLE → List BYTE
  | HANDLE.global bytes => bytes
  | _ => []

/-- The source's `Duplicate(HGLOBAL hData)`. `alloc` is the outcome of the
`GlobalAlloc(GHND, s)` call: whether it returns a block. -/
def Duplicate (alloc : Bool) (hData : HANDLE) : HANDLE :=
  if hData = HANDLE.NULL then HANDLE.NULL
  else
    let s := GlobalSize hData
    if s ≤ 0 then HANDLE.NULL
    else if alloc = false then HANDLE.NULL
    else HANDLE.global ((lockedBytes hData).take s)

/-- Platform `CopyImage(hData, IMAGE_BITMAP, 0, 0, LR_DEFAULTSIZE)`: a copy of
a bitmap, `NULL` for anything else or when the copy cannot be allocated. -/
def CopyImage (alloc : Bool) (hData : HANDLE) : HANDLE :=
  match hData with
  | HANDLE.bitmap bm => if alloc then HANDLE.bitmap bm else HANDLE.NULL
  | _ => HANDLE.NULL

/-- What the open clipboard answers for one enumerated format: the id returned
by `EnumClipboardFormats`, the handle `GetClipboardData` returns for it, and
whether the allocation made while copying it succeeds. -/
structure Offer where
  format : UINT
  hData : HANDLE
  alloc : Bool
  deriving DecidableEq, Repr

/-- The enumeration loop `UINT format = 0; while (format =
EnumClipboardFormats(format)) m_formats.push_back(format);` as written: each
answer of the platform function `E` is the argument of the next call, and the
loop ends at the answer 0. `fuel` bounds the calls; `none` is a run that has
not ended within them. -/
def enumLoop (E : UINT → UINT) : Nat → UINT → Option (List UINT)
  | 0, _ => none
  | fuel + 1, format =>
    if E format = 0 then some []
    else (enumLoop E fuel (E format)).map (fun rest => E format :: rest)

/-- The enumeration read off a list of answers: the offers are collected until
the answer 0. The list stands for the successive answers of the platform with
what it holds for each; it may be any list, so that what is proved for every
list holds for every run of `enumLoop`, whose answers never repeat an id. -/
def enumerate : List Offer → List Offer
  | [] => []
  | o :: rest => if o.format = 0 then [] else o :: enumerate rest

/-- The loop that sets `m_uFormat`: the first `f` with `f <= CF_MAX`, and the
initial value 0 when the loop finds none. -/
def selectFormat : List UINT → UINT
  | [] => 0
  | f :: rest => if f ≤ CF_MAX then f else selectFormat rest

/-- The first `switch (f)` of the capture loop: the value of `skip`. -/
def skipFormat (format_done : List UINT) (f : UINT) : Bool :=
  if f = CF_TEXT ∨ f = CF_UNICODETEXT ∨ f = CF_OEMTEXT then
    contains format_done CF_TEXT || contains format_done CF_UNICODETEXT
      || contains format_done CF_OEMTEXT
  else if f = CF_BITMAP ∨ f = CF_DIB ∨ f = CF_DIBV5 then
    contains format_done CF_BITMAP || contains format_done CF_DIB
      || contains format_done CF_DIBV5
  else if f = CF_PALETTE then
    contains format_done CF_DIB || contains format_done CF_DIBV5
  else if f = CF_ENHMETAFILE ∨ f = CF_METAFILEPICT then
    contains format_done CF_ENHMETAFILE || contains format_done CF_METAFILEPICT
  else false

/-- The second `switch (f)` of the capture loop: the value of `hCopy`. -/
def copyOf (o : Offer) : HANDLE :=
  if o.format = CF_BITMAP then CopyImage o.alloc o.hData
  else Duplicate o.alloc o.hData

/-- The locals of the capture loop: the set `format_done`, the snapshot `n`
under construction, and the trace of the formats passed to
`GetClipboardData`. -/
structure CaptureState where
  format_done : List UINT
  n : List HistItem
  reads : List UINT
  deriving DecidableEq, Repr

/-- One iteration of `for (const UINT f : m_formats)` in the capture loop. -/
def captureStep (st : CaptureState) (o : Offer) : CaptureState :=
  if skipFormat st.format_done o.format then st
  else
    let reads := st.reads ++ [o.format]
    let hCopy := copyOf o
    if hCopy = HANDLE.NULL then { st with reads := reads }
    else
      { format_done := List.insert o.format st.format_done
        n := st.n ++ [{ uFormat := o.format, hData := hCopy }]
        reads := reads }

/-- The capture loop, from the empty `format_done` and the empty snapshot. -/
def captureLoop (offers : List Offer) : CaptureState :=
  offers.foldl captureStep { format_done := [], n := [], reads := [] }

/-- The source's `OnClipboardUpdate`. `clip` is what the clipboard answers
during this call. -/
def OnClipboardUpdate (clip : List Offer) (w : RadClipboardViewerWnd) :
    RadClipboardViewerWnd :=
  let offers := enumerate clip
  let m_formats := offers.map Offer.format
  { m_formats := m_formats
    m_uFormat := selectFormat m_formats
    m_text := []
    m_history := (captureLoop offers).n :: w.m_history }

/-- The newest snapshot of the history, `m_history.front()`. -/
def newest (w : RadClipboardViewerWnd) : List HistItem :=
  w.m_history.headD []

/-- The number of entries of a snapshot whose format is in `group`. -/
def countGroup (group : List UINT) (n : List HistItem) : Nat :=
  n.countP (fun e => decide (e.uFormat ∈ group))

/-! ## Memory and strings -/

/-- Platform `GlobalLock`, as `AutoGlobalLock<T>` uses it: the bytes of a memory
block, and no pointer for a handle that is not one. -/
def GlobalLock : HANDLE → Option (List BYTE)
  | HANDLE.global bytes => some bytes
  | _ => none

/-- The byte at offset `off` of a block. -/
def readBYTE (m : List BYTE) (off : Nat) : Option Nat :=
  m[off]?

/-- The little-endian 16-bit value at byte offset `off` (a `WORD`, a `WCHAR`). -/
def readWORD (m : List BYTE) (off : Nat) : Option Nat :=
  match m[off]?, m[off + 1]? with
  | some lo, some hi => some (lo + 256 * hi)
  | _, _ => none

/-- The little-endian 32-bit value at byte offset `off` (a `DWORD`, a `BOOL`). -/
def readDWORD (m : List BYTE) (off : Nat) : Option Nat :=
  match readWORD m off, readWORD m (off + 2) with
  | some lo, some hi => some (lo + 65536 * hi)
  | _, _ => none

/-- A 32-bit pattern read as a `LONG`. -/
def toLONG (x : Nat) : Int :=
  if x < 2147483648 then (x : Int) else (x : Int) - 4294967296

/-- The source's `TEXT("...")` literal, as code units. -/
def TEXT (s : String) : List TCHAR :=
  s.toList.map Char.toNat

/-- The `%u` conversion. -/
def fmtUInt (n : Nat) : List TCHAR :=
  TEXT (toString n)

/-- The `%d` conversion. -/
def fmtInt (i : Int) : List TCHAR :=
  TEXT (toString i)

/-- Platform `StringCchPrintf(name, cchDest, ...)`: the formatted text, cut to
the `cchDest - 1` characters that fit before the terminator. -/
def StringCchPrintf (cchDest : Nat) (formatted : List TCHAR) : List TCHAR :=
  formatted.take (cchDest - 1)

/-- The characters a `%.{prec}s` conversion prints: it reads from character
index `k` on, stops at the first 0 and after `prec` characters. `rd` reads one
character of the locked string. -/
def precStr (rd : Nat → Option Nat) : Nat → Nat → Option (List TCHAR)
  | 0, _ => some []
  | prec + 1, k =>
    match rd k with
    | none => none
    | some c => if c = 0 then some [] else (precStr rd prec (k + 1)).map (fun t => c :: t)

abbrev MAX_PATH : Nat := 260

/-- Platform `StringCchLength(psz, cchMax, &len)` of `strsafe.h`, with `psz` at
character index `p`: it scans while `cchMax` lasts and the character is not 0;
`(true, len)` on success, and `(false, 0)` when no terminator is found within
`cchMax` characters (the call fails; `len`, initialised to 0 by the caller, is 0
after it). The last argument counts the characters passed. -/
def StringCchLength (rd : Nat → Option Nat) (p : Nat) : Nat → Nat → Option (Bool × Nat)
  | 0, _ => some (false, 0)
  | cchMax + 1, k =>
    match rd (p + k) with
    | none => none
    | some c => if c = 0 then some (true, k) else StringCchLength rd p cchMax (k + 1)

/-- The `len` characters from character index `p`, as `DrawText(hdc, pStr,
int(len), ...)` reads them. -/
def readChars (rd : Nat → Option Nat) (p : Nat) : Nat → Option (List TCHAR)
  | 0 => some []
  | len + 1 =>
    match rd p, readChars rd (p + 1) len with
    | some c, some t => some (c :: t)
    | _, _ => none

/-! ## The history menu: `OnHotKey` -/

abbrev HK_HIST : Nat := 4

abbrev CommandBegin : Nat := 0x100

/-- The loop `while (*pStr) { StringCchLength(pStr, MAX_PATH, &len); ++count;
pStr += len + 1; }` of the `CF_HDROP` label, the same for both character widths.
`hrContinue` says whether execution goes on after `CHECK_HR` meets a failed
call (the macro is declared in `Rad/WinError.h`, outside `src/`), and the result
is `none` when it does not; `fuel` bounds the iterations, each of which advances
`pStr` inside the block, so that the number of bytes of the block, plus one, is
enough. The counter is an `int`, far from its limit for any block the walk can
cross. -/
def countFiles (hrContinue : Bool) (rd : Nat → Option Nat) : Nat → Nat → Nat → Option Nat
  | 0, _, _ => none
  | fuel + 1, p, count =>
    match rd p with
    | none => none
    | some c =>
      if c = 0 then some count
      else
        match StringCchLength rd p MAX_PATH 0 with
        | none => none
        | some (ok, len) =>
          if ok = false ∧ hrContinue = false then none
          else countFiles hrContinue rd fuel (p + len + 1) (count + 1)

/-- The `case CF_HDROP:` block of the label loop up to the final `count`:
`pFiles` is the `DWORD` at offset 0 of `DROPFILES`, `fWide` the `BOOL` at
offset 16. -/
def dropFilesCount (hrContinue : Bool) (hData : HANDLE) : Option Nat :=
  match GlobalLock hData with
  | none => none
  | some m =>
    match readDWORD m 0, readDWORD m 16 with
    | some pFiles, some fWide =>
      if fWide ≠ 0 then
        countFiles hrContinue (fun k => readWORD m (pFiles + 2 * k)) (m.length + 1) 0 0
      else
        countFiles hrContinue (fun k => readBYTE m (pFiles + k)) (m.length + 1) 0 0
    | _, _ => none

/-- One pass of the `switch (e.uFormat)` of the label loop. The outer `none`
is a read the source leaves undefined (a lock that fails, a read outside the
block); `some none` is the `default:` case, which clears `dobreak`;
`some (some name)` is the text printed to `name` by the other cases. The
conversion `%.50S` widens the 8-bit characters of a text one by one. -/
def entryName (hrContinue : Bool) (e : HistItem) : Option (Option (List TCHAR)) :=
  if e.uFormat = CF_TEXT then
    match GlobalLock e.hData with
    | none => none
    | some m => (precStr (fun k => readBYTE m k) 50 0).map (fun s => some (StringCchPrintf 1024 s))
  else if e.uFormat = CF_UNICODETEXT then
    match GlobalLock e.hData with
    | none => none
    | some m =>
      (precStr (fun k => readWORD m (2 * k)) 50 0).map (fun s => some (StringCchPrintf 1024 s))
  else if e.uFormat = CF_BITMAP then
    match e.hData with
    | HANDLE.bitmap bm =>
      some (some (StringCchPrintf 1024 (TEXT "Image " ++ fmtInt bm.bmWidth ++ TEXT " x "
        ++ fmtInt bm.bmHeight ++ TEXT " x " ++ fmtInt bm.bmBitsPixel)))
    | _ => none
  else if e.uFormat = CF_DIB then
    match GlobalLock e.hData with
    | none => none
    | some m =>
      match readDWORD m 4, readDWORD m 8, readWORD m 14 with
      | some biWidth, some biHeight, some biBitCount =>
        some (some (StringCchPrintf 1024 (TEXT "Image " ++ fmtInt (toLONG biWidth) ++ TEXT " x "
          ++ fmtInt (toLONG biHeight) ++ TEXT " x " ++ fmtInt (biBitCount : Int))))
      | _, _, _ => none
  else if e.uFormat = CF_HDROP then
    (dropFilesCount hrContinue e.hData).map
      (fun (count : Nat) => some (StringCchPrintf 1024 (fmtInt (count : Int) ++ TEXT " Files")))
  else some none

/-- The loop `for (const auto& e : i)` of the label: the content of `name`
when the loop ends (empty when no entry printed to it). -/
def labelLoop (hrContinue : Bool) : List HistItem → Option (List TCHAR)
  | [] => some []
  | e :: rest =>
    match entryName hrContinue e with
    | none => none
    | some (some name) => some name
    | some none => labelLoop hrContinue rest

/-- The label of one history entry: the loop, then the fallback
`"Item: %u"` of `i.front().uFormat` when `name[0] == 0`. Taking `front()` of an
empty snapshot is undefined, `none` here. -/
def menuLabel (hrContinue : Bool) (i : List HistItem) : Option (List TCHAR) :=
  match labelLoop hrContinue i with
  | none => none
  | some name =>
    if name = [] then
      match i with
      | [] => none
      | e :: _ => some (StringCchPrintf 1024 (TEXT "Item: " ++ fmtUInt e.uFormat))
    else some name

/-- The outer loop `for (const auto& i : m_history)`: the labels appended to
the menu, the k-th with id `CommandBegin + k`. -/
def menuLabels (hrContinue : Bool) : List (List HistItem) → Option (List (List TCHAR))
  | [] => some []
  | i :: rest =>
    match menuLabel hrContinue i, menuLabels hrContinue rest with
    | some l, some ls => some (l :: ls)
    | _, _ => none

/-- Platform `SetClipboardData`: the clipboard is the sequence of the
(format, handle) pairs placed on it since `EmptyClipboard`. -/
def SetClipboardData (cb : List HistItem) (e : HistItem) : List HistItem :=
  cb ++ [e]

/-- What `OnHotKey` leaves behind: the labels of the menu it showed, the
clipboard, and the window's members. -/
structure HotKeyResult where
  menu : List (List TCHAR)
  clipboard : List HistItem
  wnd : RadClipboardViewerWnd
  deriving DecidableEq, Repr

/-- The source's `OnHotKey`, for a run in which the clipboard is acquired.
`Command` is the value `TrackPopupMenu` returns (0 when the menu is dismissed),
`cb` the clipboard before the call. Indexing `m_history` out of range is
undefined, `none` here. -/
def OnHotKey (hrContinue : Bool) (idHotKey : Nat) (Command : Nat) (cb : List HistItem)
    (w : RadClipboardViewerWnd) : Option HotKeyResult :=
  if idHotKey = HK_HIST then
    match menuLabels hrContinue w.m_history with
    | none => none
    | some menu =>
      if Command > CommandBegin then
        match w.m_history[Command - CommandBegin]? with
        | none => none
        | some i =>
          some { menu := menu
                 clipboard := i.foldl SetClipboardData []
                 wnd := { w with m_history := w.m_history.eraseIdx (Command - CommandBegin) } }
      else some { menu := menu, clipboard := cb, wnd := w }
  else some { menu := [], clipboard := cb, wnd := w }

/-! ## The file-drop preview of `OnDraw` -/

/-- The loop `while (*pStr) { StringCchLength(pStr, MAX_PATH, &len);
DrawText(hdc, pStr, int(len), ...); pStr += len + 1; }` of the `CF_HDROP`
preview: the lines drawn, top to bottom. -/
def drawFiles (hrContinue : Bool) (rd : Nat → Option Nat) : Nat → Nat → Option (List (List TCHAR))
  | 0, _ => none
  | fuel + 1, p =>
    match rd p with
    | none => none
    | some c =>
      if c = 0 then some []
      else
        match StringCchLength rd p MAX_PATH 0 with
        | none => none
        | some (ok, len) =>
          if ok = false ∧ hrContinue = false then none
          else
            match readChars rd p len, drawFiles hrContinue rd fuel (p + len + 1) with
            | some line, some rest => some (line :: rest)
            | _, _ => none

/-- The `case CF_HDROP:` block of `OnDraw`: the lines it draws. -/
def OnDraw_CF_HDROP (hrContinue : Bool) (hData : HANDLE) : Option (List (List TCHAR)) :=
  match GlobalLock hData with
  | none => none
  | some m =>
    match readDWORD m 0, readDWORD m 16 with
    | some pFiles, some fWide =>
      if fWide ≠ 0 then
        drawFiles hrContinue (fun k => readWORD m (pFiles + 2 * k)) (m.length + 1) 0
      else
        drawFiles hrContinue (fun k => readBYTE m (pFiles + k)) (m.length + 1) 0
    | _, _ => none

/-! ## The hex dump of `OnDraw` and `GetFormatName` -/

abbrev CF_OWNERDISPLAY : UINT := 0x0080

/-- The ids `RegisterClipboardFormat` returns for the six names registered when
the program starts; they are assigned by the platform at run time. -/
structure Registered where
  CF_HTML : UINT
  CF_LINK : UINT
  CF_HYPERLINK : UINT
  CF_RICH : UINT
  CF_FILENAME : UINT
  CF_FILENAMEW : UINT
  deriving DecidableEq, Repr

/-- The source's `GetFormatName`. `regName f` is the text the platform's
`GetClipboardFormatName` has for `f`, empty when it has none (the call then
returns 0). -/
def GetFormatName (regName : UINT → List TCHAR) (f : UINT) : List TCHAR :=
  if f = CF_TEXT then TEXT "Text"
  else if f = CF_BITMAP then TEXT "Bitmap"
  else if f = CF_METAFILEPICT then TEXT "Metafile Picture"
  else if f = CF_OEMTEXT then TEXT "OEM Text"
  else if f = CF_DIB then TEXT "Device Independent Bitmap"
  else if f = CF_UNICODETEXT then TEXT "Unicode Text"
  else if f = CF_LOCALE then TEXT "Locale"
  else if f = CF_HDROP then TEXT "Files"
  else if f = CF_DIBV5 then TEXT "Device Independent Bitmap V5"
  else
    let name := (regName f).take (1024 - 1)
    if name.length = 0 then StringCchPrintf 1024 (TEXT "Format: " ++ fmtUInt f)
    else name

/-- The `%02X` conversion: upper-case hexadecimal, padded with zeros to two
characters. -/
def fmt02X (b : Nat) : List TCHAR :=
  let ds := (Nat.toDigits 16 b).map (fun ch => ch.toUpper.toNat)
  List.replicate (2 - ds.length) 48 ++ ds

/-- Platform `std::isprint` in the "C" locale: the characters from the space
to the tilde. -/
def isprint (b : Nat) : Bool :=
  decide (32 ≤ b ∧ b ≤ 126)

/-- The first inner loop `for (j = 0; j < 16 && (i + j) < sz; ++j)` of the
dump: `" %02X"` of each byte, appended in turn. The first counter is what is
left of the 16 rounds. Every index read is below `sz`, the size of the
block. -/
def hexLoop (pData : List BYTE) (sz i : Nat) : Nat → Nat → List TCHAR
  | 0, _ => []
  | left + 1, j =>
    if i + j < sz then
      StringCchPrintf 100 (TEXT " " ++ fmt02X (pData.getD (i + j) 0))
        ++ hexLoop pData sz i left (j + 1)
    else []

/-- The second inner loop of the dump: the byte itself when `std::isprint`
accepts it, a dot otherwise. -/
def asciiLoop (pData : List BYTE) (sz i : Nat) : Nat → Nat → List TCHAR
  | 0, _ => []
  | left + 1, j =>
    if i + j < sz then
      (if isprint (pData.getD (i + j) 0) then pData.getD (i + j) 0 else 46)
        :: asciiLoop pData sz i left (j + 1)
    else []

/-- The outer loop `for (i = 0; i < sz; i += 16)` of the dump: a newline, the
first inner loop, a tab, the second inner loop. `fuel` bounds the rounds; `sz`
of them are enough, as each adds 16 to `i`. -/
def dumpLoop (pData : List BYTE) (sz : Nat) : Nat → Nat → List TCHAR
  | 0, _ => []
  | fuel + 1, i =>
    if i < sz then
      [10] ++ hexLoop pData sz i 16 0 ++ [9] ++ asciiLoop pData sz i 16 0
        ++ dumpLoop pData sz fuel (i + 16)
    else []

/-- The text the `default:` block of `OnDraw` builds when `m_text` is
empty. -/
def buildDump (regName : UINT → List TCHAR) (m_uFormat : UINT) (hData : HANDLE) : List TCHAR :=
  TEXT "Unknown format: " ++ GetFormatName regName m_uFormat
    ++ dumpLoop (lockedBytes hData) (GlobalSize hData) (GlobalSize hData) 0

/-- The format `OnDraw` switches on: the registered text-like formats are
drawn as text, the wide file name as unicode-text. -/
def aliasFormat (reg : Registered) (m_uFormat : UINT) : UINT :=
  if m_uFormat = reg.CF_HTML ∨ m_uFormat = reg.CF_LINK ∨ m_uFormat = reg.CF_HYPERLINK
      ∨ m_uFormat = reg.CF_RICH ∨ m_uFormat = reg.CF_FILENAME then CF_TEXT
  else if m_uFormat = reg.CF_FILENAMEW then CF_UNICODETEXT
  else m_uFormat

/-- What `OnDraw` hands to the rendering calls. The arguments computed for the
rendering of texts and images are left to those calls; the lines of a file
list and the text of a dump are kept. `nothing` is a run that draws nothing:
`GetClipboardData` returned `NULL`, or the text cannot be locked and the guard
`if (pStr)` skips `DrawText`. -/
inductive Drawn where
  | emptyMessage
  | nothing
  | textA (oemFont : Bool) (hData : HANDLE)
  | textW (hData : HANDLE)
  | bitmap (hData : HANDLE)
  | dib (hData : HANDLE)
  | dibV5 (hData : HANDLE)
  | enhMetaFile (hData : HANDLE)
  | ownerDisplay
  | locale (hData : HANDLE)
  | files (lines : List (List TCHAR))
  | dump (text : List TCHAR)
  deriving DecidableEq, Repr

/-- The source's `OnDraw`, for a run in which the clipboard is acquired.
`hData` is what `GetClipboardData(m_uFormat)` returns. The result holds what is
drawn and the window's members, of which only the cache `m_text` can change.
The text cases draw only `if (pStr)`, when the handle can be locked; the bitmap
header and the locale are read through the lock without a guard, which is
undefined, `none` here, when the handle cannot be locked. -/
def OnDraw (reg : Registered) (regName : UINT → List TCHAR) (hrContinue : Bool)
    (hData : HANDLE) (w : RadClipboardViewerWnd) : Option (Drawn × RadClipboardViewerWnd) :=
  if w.m_uFormat = 0 then some (Drawn.emptyMessage, w)
  else if hData = HANDLE.NULL then some (Drawn.nothing, w)
  else
    let uFormat := aliasFormat reg w.m_uFormat
    if uFormat = CF_OEMTEXT then
      match GlobalLock hData with
      | some _ => some (Drawn.textA true hData, w)
      | none => some (Drawn.nothing, w)
    else if uFormat = CF_TEXT then
      match GlobalLock hData with
      | some _ => some (Drawn.textA false hData, w)
      | none => some (Drawn.nothing, w)
    else if uFormat = CF_UNICODETEXT then
      match GlobalLock hData with
      | some _ => some (Drawn.textW hData, w)
      | none => some (Drawn.nothing, w)
    else if uFormat = CF_BITMAP then some (Drawn.bitmap hData, w)
    else if uFormat = CF_DIB then
      match GlobalLock hData with
      | some _ => some (Drawn.dib hData, w)
      | none => none
    else if uFormat = CF_DIBV5 then
      match GlobalLock hData with
      | some _ => some (Drawn.dibV5 hData, w)
      | none => none
    else if uFormat = CF_ENHMETAFILE then some (Drawn.enhMetaFile hData, w)
    else if uFormat = CF_OWNERDISPLAY then some (Drawn.ownerDisplay, w)
    else if uFormat = CF_LOCALE then
      match GlobalLock hData with
      | some _ => some (Drawn.locale hData, w)
      | none => none
    else if uFormat = CF_HDROP then
      (OnDraw_CF_HDROP hrContinue hData).map (fun lines => (Drawn.files lines, w))
    else
      let m_text := if w.m_text = [] then buildDump regName w.m_uFormat hData else w.m_text
      some (Drawn.dump m_text, { w with m_text := m_text })

/-! ## Vocabulary of the properties -/

/-- The window before the first capture: the member initialisers of the
class. -/
def initialWnd : RadClipboardViewerWnd :=
  { m_formats := [], m_uFormat := 0, m_text := [], m_history := [] }

/-- The ids of the three synthesis groups of which a snapshot keeps one
member. -/
def groupFormats : List UINT :=
  [CF_TEXT, CF_UNICODETEXT, CF_OEMTEXT, CF_BITMAP, CF_DIB, CF_DIBV5, CF_ENHMETAFILE,
    CF_METAFILEPICT]

/-- A list of answers that holds the registered format 49152 twice, each time
with a one-byte block. No run of `enumLoop` yields it. -/
def repeatedCustomClip : List Offer :=
  [{ format := 49152, hData := HANDLE.global [1], alloc := true },
   { format := 49152, hData := HANDLE.global [1], alloc := true }]

/-- In the spec's words: the lowest-numbered well-known format (id at most
`CF_MAX`) among the formats of a snapshot, or "none" (0) if there is none. -/
def lowestWellKnown (n : List HistItem) : UINT :=
  (((n.map HistItem.uFormat).filter (fun f => decide (f ≤ CF_MAX))).min?).getD 0

/-- The first format with id at most `CF_MAX` in the order of a snapshot, or
"none" (0). -/
def firstWellKnown (n : List HistItem) : UINT :=
  ((n.map HistItem.uFormat).find? (fun f => decide (f ≤ CF_MAX))).getD 0

/-- A clipboard offering unicode-text, then a device-independent bitmap. -/
def textThenDibClip : List Offer :=
  [{ format := CF_UNICODETEXT, hData := HANDLE.global [104, 0, 0, 0], alloc := true },
   { format := CF_DIB, hData := HANDLE.global [40, 0, 0, 0], alloc := true }]

/-- A clipboard offering one registered format only. -/
def customOnlyClip : List Offer :=
  [{ format := 49152, hData := HANDLE.global [1], alloc := true }]

/-- A clipboard whose text cannot be duplicated (no data behind it), followed
by a registered format that can. -/
def failedTextClip : List Offer :=
  [{ format := CF_TEXT, hData := HANDLE.NULL, alloc := true },
   { format := 49152, hData := HANDLE.global [1], alloc := true }]

/-- A clipboard offering unicode-text, then an enhanced metafile, whose handle
is not a memory block and cannot be duplicated. -/
def textThenMetafileClip : List Offer :=
  [{ format := CF_UNICODETEXT, hData := HANDLE.global [104, 0, 0, 0], alloc := true },
   { format := CF_ENHMETAFILE, hData := HANDLE.object, alloc := true }]

/-- The text-capture scenario: text "hi" and unicode-text "hi", unicode-text
enumerated first. -/
def hiClip : List Offer :=
  [{ format := CF_UNICODETEXT, hData := HANDLE.global [104, 0, 105, 0, 0, 0], alloc := true },
   { format := CF_TEXT, hData := HANDLE.global [104, 105, 0], alloc := true }]

/-- Nothing captured so far is a well-known format: every id in `format_done`
and in `n` is above `CF_MAX`. -/
def HighOnly (st : CaptureState) : Prop :=
  (∀ f ∈ st.format_done, CF_MAX < f) ∧ (∀ e ∈ st.n, CF_MAX < e.uFormat)

/-- A history of three snapshots, each one text entry: "c" (newest), "b",
"a". -/
def threeHistory : RadClipboardViewerWnd :=
  { m_formats := [CF_TEXT]
    m_uFormat := CF_TEXT
    m_text := []
    m_history :=
      [[{ uFormat := CF_TEXT, hData := HANDLE.global [99, 0] }],
       [{ uFormat := CF_TEXT, hData := HANDLE.global [98, 0] }],
       [{ uFormat := CF_TEXT, hData := HANDLE.global [97, 0] }]] }

/-- The clipboard while `threeHistory` is current: the text "c". -/
def threeClipboard : List HistItem :=
  [{ uFormat := CF_TEXT, hData := HANDLE.global [99, 0] }]

/-- A snapshot whose only entry is the oem-text "hello". -/
def oemHello : List HistItem :=
  [{ uFormat := CF_OEMTEXT, hData := HANDLE.global [104, 101, 108, 108, 111, 0] }]

/-- The bytes of a sequence of characters: two per character, low byte first,
when `wide`, one per character otherwise. -/
def encodeChars (wide : Bool) : List Nat → List BYTE
  | [] => []
  | c :: cs =>
    if wide then (c % 256) :: (c / 256) :: encodeChars wide cs
    else c :: encodeChars wide cs

/-- A list of paths as a file-drop list: each entry followed by its
terminator 0, and an empty entry at the end. -/
def fileListChars : List (List Nat) → List Nat
  | [] => [0]
  | p :: ps => p ++ 0 :: fileListChars ps

/-- A `DROPFILES` header in front of a list that starts right after it: the
`DWORD` at offset 0 (`pFiles`) is the length of `hdr`, and the `BOOL` at offset
16 (`fWide`) is non-zero exactly when `wide`. -/
def isDropHeader (hdr : List BYTE) (wide : Bool) : Bool :=
  readDWORD hdr 0 == some hdr.length &&
    match readDWORD hdr 16 with
    | some fWide => decide (fWide ≠ 0) == wide
    | none => false

/-- The file-drop payload of `paths`: header, encoded list, and whatever
follows in the block. -/
def dropPayload (hdr : List BYTE) (wide : Bool) (paths : List (List Nat)) (tail : List BYTE) :
    HANDLE :=
  HANDLE.global (hdr ++ encodeChars wide (fileListChars paths) ++ tail)

/-- Paths as a file-drop list can hold them: not empty, no character 0, every
character within the width. -/
def ValidPaths (wide : Bool) (paths : List (List Nat)) : Prop :=
  ∀ p ∈ paths, p ≠ [] ∧ ∀ ch ∈ p, ch ≠ 0 ∧ ch < (if wide then 65536 else 256)

/-- The 20-byte `DROPFILES` header with `pFiles = 20` and `fWide = TRUE`. -/
def wideHeader : List BYTE :=
  [20, 0, 0, 0, 0, 0, 0, 0, 0, 0, 0, 0, 0, 0, 0, 0, 1, 0, 0, 0]

/-- The paths `C:\a.txt` and `C:\b.txt`. -/
def twoPaths : List (List Nat) :=
  [TEXT "C:\\a.txt", TEXT "C:\\b.txt"]

/-- One path of 260 characters `a`, as long as `MAX_PATH`. -/
def longPath : List (List Nat) :=
  [List.replicate 260 97]

/-- One upper-case hexadecimal digit. -/
def hexDigitUpper (d : Nat) : Nat :=
  if d < 10 then 48 + d else 55 + d

/-- In the spec's words: a space and the byte as two upper-case hexadecimal
digits. -/
def hexPair (b : BYTE) : List TCHAR :=
  [32, hexDigitUpper (b / 16), hexDigitUpper (b % 16)]

/-- In the spec's words: the byte itself if it is printable ASCII, a dot
otherwise. -/
def printableOrDot (b : Nat) : Nat :=
  if 32 ≤ b ∧ b ≤ 126 then b else 46

/-- The bytes of line `k` of a dump: those at the positions from `16 k` to
`min (16 k + 16) n - 1`. -/
def lineBytes (bytes : List BYTE) (k : Nat) : List BYTE :=
  (bytes.drop (16 * k)).take 16

/-- In the spec's words, line `k` of the dump: a newline, the hex group of the
bytes of the line, a tab, and one character for each of the same bytes. -/
def specLine (bytes : List BYTE) (k : Nat) : List TCHAR :=
  [10] ++ (lineBytes bytes k).flatMap hexPair ++ [9] ++ (lineBytes bytes k).map printableOrDot

/-- In the spec's words, the lines of the dump of `n` bytes: `⌈n / 16⌉` of
them. -/
def dumpBody (bytes : List BYTE) : List TCHAR :=
  (List.range ((bytes.length + 15) / 16)).flatMap (specLine bytes)

/-- In the spec's words, the text of the dump: the header with the name of the
format, then the lines. -/
def specDump (formatName : List TCHAR) (bytes : List BYTE) : List TCHAR :=
  TEXT "Unknown format: " ++ formatName ++ dumpBody bytes

/-- The value of a hexadecimal digit. -/
def hexVal (c : Nat) : Nat :=
  if 48 ≤ c ∧ c ≤ 57 then c - 48 else c - 55

/-- The states of a reader of dump lines: skipping to the next newline, at the
start of a hex pair, before the high digit, and before the low digit. -/
inductive DumpState where
  | skip
  | start
  | hi
  | lo (h : Nat)
  deriving DecidableEq, Repr

/-- A reader of dump lines: it collects the bytes of the hex groups and skips
from the tab to the next newline. -/
def undump : DumpState → List TCHAR → List BYTE
  | _, [] => []
  | DumpState.skip, c :: cs =>
    if c = 10 then undump DumpState.start cs else undump DumpState.skip cs
  | DumpState.start, c :: cs =>
    if c = 32 then undump DumpState.hi cs
    else if c = 10 then undump DumpState.start cs
    else undump DumpState.skip cs
  | DumpState.hi, c :: cs => undump (DumpState.lo (hexVal c)) cs
  | DumpState.lo h, c :: cs => (16 * h + hexVal c) :: undump DumpState.start cs

/-- A format that `OnDraw` shows as a dump: not "none", and, after the text
aliases, none of the formats the `switch` has a case for. -/
def isUnknownFormat (reg : Registered) (f : UINT) : Bool :=
  decide (f ≠ 0) &&
    decide (aliasFormat reg f ∉ [CF_OEMTEXT, CF_TEXT, CF_UNICODETEXT, CF_BITMAP, CF_DIB,
      CF_DIBV5, CF_ENHMETAFILE, CF_OWNERDISPLAY, CF_LOCALE, CF_HDROP])

/-- Sample ids for the six registered formats. -/
def sampleRegistered : Registered :=
  { CF_HTML := 49300, CF_LINK := 49301, CF_HYPERLINK := 49302, CF_RICH := 49303,
    CF_FILENAME := 49304, CF_FILENAMEW := 49305 }

/-- A window whose active format is the registered format 49400, with an empty
cache. -/
def sampleDumpWnd : RadClipboardViewerWnd :=
  { m_formats := [49400], m_uFormat := 49400, m_text := [], m_history := [] }

/-- A payload of 17 bytes: "Hi", a 0, a 255, twelve bytes 1, and "A". -/
def sampleDumpBytes : List BYTE :=
  [72, 105, 0, 255, 1, 1, 1, 1, 1, 1, 1, 1, 1, 1, 1, 1, 65]

/-- A platform that knows every registered format as "My Format". -/
def sampleName : UINT → List TCHAR :=
  fun _ => TEXT "My Format"

/-- The windows the program can be in when a message arrives: the one
`OnCreate` leaves (it calls `OnClipboardUpdate`), and those that a clipboard
update or a hot key, handled to its end, makes of a reachable one. -/
inductive Reachable : RadClipboardViewerWnd → Prop where
  | create (clip : List Offer) : Reachable (OnClipboardUpdate clip initialWnd)
  | update (clip : List Offer) (w : RadClipboardViewerWnd) :
      Reachable w → Reachable (OnClipboardUpdate clip w)
  | hotKey (hrContinue : Bool) (idHotKey Command : Nat) (cb : List HistItem)
      (w : RadClipboardViewerWnd) (r : HotKeyResult) :
      Reachable w → OnHotKey hrContinue idHotKey Command cb w = some r → Reachable r.wnd

/-- The fallback of the label is reached for snapshot `i` and `i` is empty:
`name[0] == 0` after the loop, and `i.front()` is taken of an empty vector. -/
def FrontOfEmpty (hrContinue : Bool) (i : List HistItem) : Prop :=
  labelLoop hrContinue i = some [] ∧ i = []

/-- A clipboard whose only format, a text, has no data behind it, so that its
duplication fails. -/
def allFailClip : List Offer :=
  [{ format := CF_TEXT, hData := HANDLE.NULL, alloc := true }]

/-- `rd` reads the characters `cs` from character index `p` on. -/
def Reads (rd : Nat → Option Nat) : Nat → List Nat → Prop
  | _, [] => True
  | p, c :: cs => rd p = some c ∧ Reads rd (p + 1) cs

/-- The set `format_done` holds exactly the formats of the entries of `n`. -/
def DoneMatches (st : CaptureState) : Prop :=
  ∀ f, f ∈ st.format_done ↔ f ∈ st.n.map HistItem.uFormat

/-- A group all of whose members the `skip` test looks up whenever the format
at hand is one of them. -/
def Guarded (group : List UINT) : Prop :=
  ∀ (fd : List UINT) (f : UINT), f ∈ group → skipFormat fd f = false →
    ∀ x ∈ group, x ∉ fd

/-! ## Properties of the capture loop -/

theorem contains_iff (s : List UINT) (t : UINT) : contains s t = true ↔ t ∈ s := by
  simp [contains]

theorem captureStep_skip (st : CaptureState) (o : Offer)
    (h : skipFormat st.format_done o.format = true) : captureStep st o = st := by
  simp [captureStep, h]

theorem captureStep_fail (st : CaptureState) (o : Offer)
    (h : skipFormat st.format_done o.format = false) (hc : copyOf o = HANDLE.NULL) :
    captureStep st o = { st with reads := st.reads ++ [o.format] } := by
  simp [captureStep, h, hc]

theorem captureStep_ok (st : CaptureState) (o : Offer)
    (h : skipFormat st.format_done o.format = false) (hc : copyOf o ≠ HANDLE.NULL) :
    captureStep st o =
      { format_done := List.insert o.format st.format_done
        n := st.n ++ [{ uFormat := o.format, hData := copyOf o }]
        reads := st.reads ++ [o.format] } := by
  simp [captureStep, h, hc]

/-- The three ways an iteration can go. -/
theorem captureStep_cases (st : CaptureState) (o : Offer) :
    (skipFormat st.format_done o.format = true ∧ captureStep st o = st) ∨
    (skipFormat st.format_done o.format = false ∧ copyOf o = HANDLE.NULL ∧
      captureStep st o = { st with reads := st.reads ++ [o.format] }) ∨
    (skipFormat st.format_done o.format = false ∧ copyOf o ≠ HANDLE.NULL ∧
      captureStep st o =
        { format_done := List.insert o.format st.format_done
          n := st.n ++ [{ uFormat := o.format, hData := copyOf o }]
          reads := st.reads ++ [o.format] }) := by
  cases h : skipFormat st.format_done o.format
  · by_cases hc : copyOf o = HANDLE.NULL
    · exact Or.inr (Or.inl ⟨rfl, hc, captureStep_fail st o h hc⟩)
    · exact Or.inr (Or.inr ⟨rfl, hc, captureStep_ok st o h hc⟩)
  · exact Or.inl ⟨rfl, captureStep_skip st o h⟩

/-- `Duplicate` returns `NULL` for `NULL`, for a handle that is not a memory
block or is an empty one, and when the allocation fails; otherwise it returns a
block with the same bytes. -/
theorem Duplicate_spec (alloc : Bool) (hData : HANDLE) :
    (Duplicate alloc hData = HANDLE.NULL ∧
      (alloc = false ∨ ∀ bytes, hData = HANDLE.global bytes → bytes = [])) ∨
    (∃ bytes, bytes ≠ [] ∧ hData = HANDLE.global bytes ∧ alloc = true ∧
      Duplicate alloc hData = HANDLE.global bytes) := by
  cases hData with
  | NULL => exact Or.inl ⟨rfl, Or.inr (fun _ h => HANDLE.noConfusion h)⟩
  | bitmap bm => exact Or.inl ⟨rfl, Or.inr (fun _ h => HANDLE.noConfusion h)⟩
  | object => exact Or.inl ⟨rfl, Or.inr (fun _ h => HANDLE.noConfusion h)⟩
  | global bytes =>
    cases bytes with
    | nil =>
      refine Or.inl ⟨by simp [Duplicate, GlobalSize], Or.inr ?_⟩
      intro b hb
      injection hb with hb
      exact hb.symm
    | cons b t =>
      cases alloc with
      | false => exact Or.inl ⟨by simp [Duplicate, GlobalSize], Or.inl rfl⟩
      | true =>
        exact Or.inr ⟨b :: t, List.cons_ne_nil _ _, rfl, rfl,
          by simp [Duplicate, GlobalSize, lockedBytes]⟩

theorem doneMatches_step (st : CaptureState) (o : Offer) (h : DoneMatches st) :
    DoneMatches (captureStep st o) := by
  rcases captureStep_cases st o with ⟨_, e⟩ | ⟨_, _, e⟩ | ⟨_, _, e⟩ <;> rw [e]
  · exact h
  · exact h
  · intro f
    have := h f
    simp only [List.mem_insert_iff, List.map_append, List.map_cons, List.map_nil,
      List.mem_append, List.mem_singleton]
    tauto

theorem doneMatches_foldl (offers : List Offer) (st : CaptureState) (h : DoneMatches st) :
    DoneMatches (offers.foldl captureStep st) := by
  induction offers generalizing st with
  | nil => exact h
  | cons o rest ih => exact ih _ (doneMatches_step st o h)

theorem countGroup_step (group : List UINT) (hg : Guarded group) (st : CaptureState)
    (o : Offer) (hd : DoneMatches st) (hc : countGroup group st.n ≤ 1) :
    countGroup group (captureStep st o).n ≤ 1 := by
  rcases captureStep_cases st o with ⟨_, e⟩ | ⟨_, _, e⟩ | ⟨hs, _, e⟩ <;> rw [e]
  · exact hc
  · exact hc
  · by_cases hm : o.format ∈ group
    · have hz : countGroup group st.n = 0 := by
        unfold countGroup
        rw [List.countP_eq_zero]
        intro e he
        have hx := hg st.format_done o.format hm hs e.uFormat
        simp only [decide_eq_true_eq]
        intro hin
        exact hx hin ((hd e.uFormat).mpr (List.mem_map_of_mem _ he))
      simp only [countGroup, List.countP_append, List.countP_cons, List.countP_nil] at hz ⊢
      simp [hz, hm]
    · simp only [countGroup, List.countP_append, List.countP_cons, List.countP_nil] at hc ⊢
      simp [hm, hc]

theorem countGroup_foldl (group : List UINT) (hg : Guarded group) (offers : List Offer)
    (st : CaptureState) (hd : DoneMatches st) (hc : countGroup group st.n ≤ 1) :
    countGroup group (offers.foldl captureStep st).n ≤ 1 := by
  induction offers generalizing st with
  | nil => exact hc
  | cons o rest ih =>
    exact ih _ (doneMatches_step st o hd) (countGroup_step group hg st o hd hc)

theorem guarded_text : Guarded [CF_TEXT, CF_UNICODETEXT, CF_OEMTEXT] := by
  intro fd f hf hs x hx
  simp only [List.mem_cons, List.mem_singleton, List.not_mem_nil, or_false] at hf hx
  rcases hf with rfl | rfl | rfl <;> rcases hx with rfl | rfl | rfl <;>
    simp [skipFormat, contains] at hs <;> tauto

theorem guarded_bitmap : Guarded [CF_BITMAP, CF_DIB, CF_DIBV5] := by
  intro fd f hf hs x hx
  simp only [List.mem_cons, List.mem_singleton, List.not_mem_nil, or_false] at hf hx
  rcases hf with rfl | rfl | rfl <;> rcases hx with rfl | rfl | rfl <;>
    simp [skipFormat, contains] at hs <;> tauto

theorem guarded_metafile : Guarded [CF_ENHMETAFILE, CF_METAFILEPICT] := by
  intro fd f hf hs x hx
  simp only [List.mem_cons, List.mem_singleton, List.not_mem_nil, or_false] at hf hx
  rcases hf with rfl | rfl <;> rcases hx with rfl | rfl <;>
    simp [skipFormat, contains] at hs <;> tauto

theorem doneMatches_init : DoneMatches { format_done := [], n := [], reads := [] } := by
  intro f
  simp

theorem newest_OnClipboardUpdate (clip : List Offer) (w : RadClipboardViewerWnd) :
    newest (OnClipboardUpdate clip w) = (captureLoop (enumerate clip)).n := by
  simp [newest, OnClipboardUpdate]

/-- The capture loop keeps at most one member of each synthesis group. -/
theorem captureLoop_one_per_group (offers : List Offer) :
    countGroup [CF_TEXT, CF_UNICODETEXT, CF_OEMTEXT] (captureLoop offers).n ≤ 1 ∧
    countGroup [CF_BITMAP, CF_DIB, CF_DIBV5] (captureLoop offers).n ≤ 1 ∧
    countGroup [CF_ENHMETAFILE, CF_METAFILEPICT] (captureLoop offers).n ≤ 1 := by
  refine ⟨?_, ?_, ?_⟩
  · exact countGroup_foldl _ guarded_text _ _ doneMatches_init (by simp [countGroup])
  · exact countGroup_foldl _ guarded_bitmap _ _ doneMatches_init (by simp [countGroup])
  · exact countGroup_foldl _ guarded_metafile _ _ doneMatches_init (by simp [countGroup])

/-- C1. Whatever formats the clipboard enumerates and however each duplication
ends, the snapshot that `OnClipboardUpdate` puts in front of the history holds
at most one of text / unicode-text / oem-text, at most one of bitmap / DIB /
DIBV5, and at most one of enhanced-metafile / metafile-picture. -/
theorem capture_one_per_group (clip : List Offer) (w : RadClipboardViewerWnd) :
    countGroup [CF_TEXT, CF_UNICODETEXT, CF_OEMTEXT] (newest (OnClipboardUpdate clip w)) ≤ 1 ∧
    countGroup [CF_BITMAP, CF_DIB, CF_DIBV5] (newest (OnClipboardUpdate clip w)) ≤ 1 ∧
    countGroup [CF_ENHMETAFILE, CF_METAFILEPICT] (newest (OnClipboardUpdate clip w)) ≤ 1 := by
  rw [newest_OnClipboardUpdate]
  exact captureLoop_one_per_group (enumerate clip)

/-- The loop only appends: the entries added come, in order, from offers whose
copy is not `NULL`. -/
theorem foldl_n_append (offers : List Offer) (st : CaptureState) :
    ∃ l, (offers.foldl captureStep st).n = st.n ++ l ∧
      (l.map HistItem.uFormat).Sublist (offers.map Offer.format) ∧
      ∀ e ∈ l, ∃ o ∈ offers, e = { uFormat := o.format, hData := copyOf o } ∧
        copyOf o ≠ HANDLE.NULL := by
  induction offers generalizing st with
  | nil => exact ⟨[], by simp, by simp, by simp⟩
  | cons o rest ih =>
    obtain ⟨l, h1, h2, h3⟩ := ih (captureStep st o)
    rw [List.foldl_cons]
    rcases captureStep_cases st o with ⟨_, e⟩ | ⟨_, _, e⟩ | ⟨_, hc, e⟩
    · rw [e] at h1 ⊢
      refine ⟨l, h1, ?_, ?_⟩
      · simpa using h2.cons o.format
      · intro x hx
        obtain ⟨o2, ho2, hx2⟩ := h3 x hx
        exact ⟨o2, List.mem_cons_of_mem _ ho2, hx2⟩
    · rw [e] at h1 ⊢
      refine ⟨l, h1, ?_, ?_⟩
      · simpa using h2.cons o.format
      · intro x hx
        obtain ⟨o2, ho2, hx2⟩ := h3 x hx
        exact ⟨o2, List.mem_cons_of_mem _ ho2, hx2⟩
    · rw [e] at h1 ⊢
      refine ⟨{ uFormat := o.format, hData := copyOf o } :: l, ?_, ?_, ?_⟩
      · simpa using h1
      · simpa using h2.cons₂ o.format
      · intro x hx
        rcases List.mem_cons.mp hx with rfl | hx
        · exact ⟨o, List.mem_cons_self _ _, rfl, hc⟩
        · obtain ⟨o2, ho2, hx2⟩ := h3 x hx
          exact ⟨o2, List.mem_cons_of_mem _ ho2, hx2⟩

theorem captureLoop_sublist (offers : List Offer) :
    ((captureLoop offers).n.map HistItem.uFormat).Sublist (offers.map Offer.format) := by
  obtain ⟨l, h1, h2, _⟩ := foldl_n_append offers { format_done := [], n := [], reads := [] }
  unfold captureLoop
  rw [h1]
  simpa using h2

theorem captureLoop_entries (offers : List Offer) :
    ∀ e ∈ (captureLoop offers).n, ∃ o ∈ offers,
      e = { uFormat := o.format, hData := copyOf o } ∧ copyOf o ≠ HANDLE.NULL := by
  obtain ⟨l, h1, _, h3⟩ := foldl_n_append offers { format_done := [], n := [], reads := [] }
  unfold captureLoop
  rw [h1]
  simpa using h3

theorem count_le_countGroup (group : List UINT) (f : UINT) (hf : f ∈ group)
    (n : List HistItem) : (n.map HistItem.uFormat).count f ≤ countGroup group n := by
  unfold countGroup
  rw [List.count, List.countP_map]
  apply List.countP_mono_left
  intro e _ he
  simp only [Function.comp_apply, beq_iff_eq] at he
  simp [he, hf]

theorem enumerate_nonzero (clip : List Offer) : ∀ o ∈ enumerate clip, o.format ≠ 0 := by
  induction clip with
  | nil => simp [enumerate]
  | cons o rest ih =>
    unfold enumerate
    split
    · simp
    · intro x hx
      rcases List.mem_cons.mp hx with rfl | hx
      · assumption
      · exact ih x hx

theorem enumerate_of_nonzero (l : List Offer) (h : ∀ o ∈ l, o.format ≠ 0) :
    enumerate l = l := by
  induction l with
  | nil => rfl
  | cons o rest ih =>
    have h0 : o.format ≠ 0 := h o (List.mem_cons_self _ _)
    have hr : ∀ x ∈ rest, x.format ≠ 0 := fun x hx => h x (List.mem_cons_of_mem _ hx)
    simp [enumerate, h0, ih hr]

/-- Removing the offers whose copy is `NULL` changes neither the snapshot nor
the set `format_done`. -/
theorem foldl_filter_failed (offers : List Offer) (st st2 : CaptureState)
    (hn : st.n = st2.n) (hd : st.format_done = st2.format_done) :
    (offers.foldl captureStep st).n =
        ((offers.filter (fun o => decide (copyOf o ≠ HANDLE.NULL))).foldl captureStep st2).n ∧
      (offers.foldl captureStep st).format_done =
        ((offers.filter (fun o => decide (copyOf o ≠ HANDLE.NULL))).foldl captureStep
          st2).format_done := by
  induction offers generalizing st st2 with
  | nil => exact ⟨hn, hd⟩
  | cons o rest ih =>
    by_cases hc : copyOf o = HANDLE.NULL
    · have hf : (o :: rest).filter (fun o => decide (copyOf o ≠ HANDLE.NULL)) =
          rest.filter (fun o => decide (copyOf o ≠ HANDLE.NULL)) := by
        simp [List.filter_cons, hc]
      rw [hf, List.foldl_cons]
      apply ih
      · rcases captureStep_cases st o with ⟨_, e⟩ | ⟨_, _, e⟩ | ⟨_, h, _⟩
        · rw [e]; exact hn
        · rw [e]; exact hn
        · exact absurd hc h
      · rcases captureStep_cases st o with ⟨_, e⟩ | ⟨_, _, e⟩ | ⟨_, h, _⟩
        · rw [e]; exact hd
        · rw [e]; exact hd
        · exact absurd hc h
    · have hf : (o :: rest).filter (fun o => decide (copyOf o ≠ HANDLE.NULL)) =
          o :: rest.filter (fun o => decide (copyOf o ≠ HANDLE.NULL)) := by
        simp [List.filter_cons, hc]
      rw [hf, List.foldl_cons, List.foldl_cons]
      cases hs : skipFormat st.format_done o.format
      · have hs2 : skipFormat st2.format_done o.format = false := by rw [← hd]; exact hs
        apply ih
        · rw [captureStep_ok st o hs hc, captureStep_ok st2 o hs2 hc]
          simp [hn]
        · rw [captureStep_ok st o hs hc, captureStep_ok st2 o hs2 hc]
          simp [hd]
      · have hs2 : skipFormat st2.format_done o.format = true := by rw [← hd]; exact hs
        rw [captureStep_skip st o hs, captureStep_skip st2 o hs2]
        exact ih st st2 hn hd

/-- C3. Partial failure of a capture. Every entry of the snapshot carries the
non-`NULL` copy of an enumerated format; a format all of whose duplications
return `NULL` is neither in the snapshot nor in `format_done`; and the capture
goes on past a failure: the snapshot, and `format_done`, are those captured
from the same enumeration with the failing offers removed. -/
theorem capture_drops_failed_formats (clip : List Offer) (w : RadClipboardViewerWnd) :
    (∀ e ∈ newest (OnClipboardUpdate clip w), e.hData ≠ HANDLE.NULL ∧
      ∃ o ∈ enumerate clip, o.format = e.uFormat ∧ copyOf o = e.hData) ∧
    (∀ f, (∀ o ∈ enumerate clip, o.format = f → copyOf o = HANDLE.NULL) →
      f ∉ (newest (OnClipboardUpdate clip w)).map HistItem.uFormat ∧
      f ∉ (captureLoop (enumerate clip)).format_done) ∧
    newest (OnClipboardUpdate clip w) =
      newest (OnClipboardUpdate
        ((enumerate clip).filter (fun o => decide (copyOf o ≠ HANDLE.NULL))) w) ∧
    (captureLoop (enumerate clip)).format_done =
      (captureLoop (enumerate
        ((enumerate clip).filter (fun o => decide (copyOf o ≠ HANDLE.NULL))))).format_done := by
  have hen : enumerate ((enumerate clip).filter (fun o => decide (copyOf o ≠ HANDLE.NULL))) =
      (enumerate clip).filter (fun o => decide (copyOf o ≠ HANDLE.NULL)) :=
    enumerate_of_nonzero _ (fun o ho => enumerate_nonzero clip o (List.mem_of_mem_filter ho))
  have hin : ∀ f, (∀ o ∈ enumerate clip, o.format = f → copyOf o = HANDLE.NULL) →
      f ∉ (captureLoop (enumerate clip)).n.map HistItem.uFormat := by
    intro f hf hmem
    obtain ⟨e, he, rfl⟩ := List.mem_map.mp hmem
    obtain ⟨o, ho, rfl, hne⟩ := captureLoop_entries _ e he
    exact hne (hf o ho rfl)
  have hfil := foldl_filter_failed (enumerate clip) { format_done := [], n := [], reads := [] }
    { format_done := [], n := [], reads := [] } rfl rfl
  simp only [newest_OnClipboardUpdate, hen]
  refine ⟨?_, ?_, hfil.1, hfil.2⟩
  · intro e he
    obtain ⟨o, ho, rfl, hne⟩ := captureLoop_entries _ e he
    exact ⟨hne, o, ho, rfl, rfl⟩
  · intro f hf
    refine ⟨hin f hf, ?_⟩
    intro hdone
    exact hin f hf ((doneMatches_foldl _ _ doneMatches_init f).mp hdone)

/-- The capture loop by itself keeps both entries of a list that repeats a
format outside the synthesis groups: it consults `format_done` for the groups
only. -/
theorem repeated_list_captured_twice :
    ¬ ((newest (OnClipboardUpdate repeatedCustomClip initialWnd)).map HistItem.uFormat).Nodup := by
  decide

/-- When no format outside the three synthesis groups occurs more than once in
the list of answers, no two entries of the captured snapshot carry the same
format id; for the members of the groups the capture loop itself rules a
repeat out. -/
theorem capture_unique_of_count (clip : List Offer) (w : RadClipboardViewerWnd)
    (h : ∀ f, f ∉ groupFormats → ((enumerate clip).map Offer.format).count f ≤ 1) :
    ((newest (OnClipboardUpdate clip w)).map HistItem.uFormat).Nodup := by
  rw [List.nodup_iff_count_le_one, newest_OnClipboardUpdate]
  intro f
  by_cases hf : f ∈ groupFormats
  · have hg := captureLoop_one_per_group (enumerate clip)
    simp only [groupFormats, List.mem_cons, List.mem_singleton, List.not_mem_nil,
      or_false] at hf
    rcases hf with hf | hf | hf | hf | hf | hf | hf | hf
    · exact le_trans (count_le_countGroup _ f (by simp [hf]) _) hg.1
    · exact le_trans (count_le_countGroup _ f (by simp [hf]) _) hg.1
    · exact le_trans (count_le_countGroup _ f (by simp [hf]) _) hg.1
    · exact le_trans (count_le_countGroup _ f (by simp [hf]) _) hg.2.1
    · exact le_trans (count_le_countGroup _ f (by simp [hf]) _) hg.2.1
    · exact le_trans (count_le_countGroup _ f (by simp [hf]) _) hg.2.1
    · exact le_trans (count_le_countGroup _ f (by simp [hf]) _) hg.2.2
    · exact le_trans (count_le_countGroup _ f (by simp [hf]) _) hg.2.2
  · exact le_trans ((captureLoop_sublist (enumerate clip)).count_le f) (h f hf)

/-- One round of the enumeration loop, read backwards. -/
theorem enumLoop_succ (E : UINT → UINT) (fuel : Nat) (format : UINT) (l : List UINT)
    (h : enumLoop E (fuel + 1) format = some l) :
    (E format = 0 ∧ l = []) ∨
    (E format ≠ 0 ∧ ∃ rest, l = E format :: rest ∧ enumLoop E fuel (E format) = some rest) := by
  unfold enumLoop at h
  by_cases h0 : E format = 0
  · rw [if_pos h0] at h
    exact Or.inl ⟨h0, (Option.some.inj h).symm⟩
  · rw [if_neg h0] at h
    cases hr : enumLoop E fuel (E format) with
    | none =>
      rw [hr] at h
      exact Option.noConfusion h
    | some rest =>
      rw [hr] at h
      exact Or.inr ⟨h0, rest, (Option.some.inj h).symm, rfl⟩

/-- What the loop enumerates from a format on does not depend on the fuel. -/
theorem enumLoop_unique (E : UINT → UINT) (fuel1 fuel2 : Nat) (format : UINT)
    (l1 l2 : List UINT) (h1 : enumLoop E fuel1 format = some l1)
    (h2 : enumLoop E fuel2 format = some l2) : l1 = l2 := by
  induction fuel1 generalizing fuel2 format l1 l2 with
  | zero => exact Option.noConfusion h1
  | succ n ih =>
    cases fuel2 with
    | zero => exact Option.noConfusion h2
    | succ m =>
      rcases enumLoop_succ E n format l1 h1 with ⟨a0, a1⟩ | ⟨a0, r1, a1, a2⟩
      · rcases enumLoop_succ E m format l2 h2 with ⟨_, b1⟩ | ⟨b0, _⟩
        · rw [a1, b1]
        · exact absurd a0 b0
      · rcases enumLoop_succ E m format l2 h2 with ⟨b0, _⟩ | ⟨_, r2, b1, b2⟩
        · exact absurd b0 a0
        · rw [a1, b1, ih m (E format) r1 r2 a2 b2]

/-- What follows an id in the enumeration is what the loop enumerates from that
id on. -/
theorem enumLoop_suffix (E : UINT → UINT) (a : List UINT) (x : UINT) (b : List UINT)
    (fuel : Nat) (format : UINT) (h : enumLoop E fuel format = some (a ++ x :: b)) :
    ∃ fuel2, enumLoop E fuel2 x = some b := by
  induction a generalizing fuel format with
  | nil =>
    cases fuel with
    | zero => exact Option.noConfusion h
    | succ n =>
      rcases enumLoop_succ E n format _ h with ⟨_, a1⟩ | ⟨_, rest, a1, a2⟩
      · exact List.noConfusion a1
      · simp only [List.nil_append, List.cons.injEq] at a1
        rw [← a1.1, ← a1.2] at a2
        exact ⟨n, a2⟩
  | cons y t ih =>
    cases fuel with
    | zero => exact Option.noConfusion h
    | succ n =>
      rcases enumLoop_succ E n format _ h with ⟨_, a1⟩ | ⟨_, rest, a1, a2⟩
      · exact List.noConfusion a1
      · simp only [List.cons_append, List.cons.injEq] at a1
        rw [← a1.2] at a2
        exact ih n (E format) a2

/-- A run of the enumeration loop that ends has collected no id twice: a
repeated id would be followed by the same ids again, without end. -/
theorem enumLoop_nodup (E : UINT → UINT) (fuel : Nat) (format : UINT) (l : List UINT)
    (h : enumLoop E fuel format = some l) : l.Nodup := by
  induction fuel generalizing format l with
  | zero => exact Option.noConfusion h
  | succ n ih =>
    rcases enumLoop_succ E n format l h with ⟨_, a1⟩ | ⟨_, rest, a1, a2⟩
    · rw [a1]
      exact List.nodup_nil
    · rw [a1]
      refine List.nodup_cons.mpr ⟨?_, ih (E format) rest a2⟩
      intro hmem
      obtain ⟨a, b, hab⟩ := List.append_of_mem hmem
      rw [hab] at a2
      obtain ⟨fuel2, hb⟩ := enumLoop_suffix E a (E format) b n (E format) a2
      have heq := enumLoop_unique E n fuel2 (E format) _ _ a2 hb
      have hlen := congrArg List.length heq
      simp only [List.length_append, List.length_cons] at hlen
      omega

/-- No run of the enumeration loop yields the list that repeats 49152. -/
theorem repeated_list_not_enumerated (E : UINT → UINT) (fuel : Nat) :
    enumLoop E fuel 0 ≠ some (repeatedCustomClip.map Offer.format) := by
  intro h
  have hn := enumLoop_nodup E fuel 0 _ h
  exact absurd hn (by decide)

/-- C5. A capture puts exactly one snapshot in front of the history and evicts
nothing: the length grows by one, position 0 holds the captured snapshot, and
every snapshot retained before is unchanged at its old index plus one. -/
theorem capture_pushes_front (clip : List Offer) (w : RadClipboardViewerWnd) :
    (OnClipboardUpdate clip w).m_history.length = w.m_history.length + 1 ∧
    (OnClipboardUpdate clip w).m_history[0]? = some (captureLoop (enumerate clip)).n ∧
    ∀ k, (OnClipboardUpdate clip w).m_history[k + 1]? = w.m_history[k]? := by
  simp [OnClipboardUpdate]

/-- C6. When the clipboard offers exactly text and unicode-text, in either
order, and both duplications succeed, the snapshot has exactly one entry, the
format enumerated first with its copy, and `GetClipboardData` is called for that
format only: the other one is skipped without being read. -/
theorem text_pair_keeps_first (a b : Offer) (w : RadClipboardViewerWnd)
    (hf : (a.format = CF_TEXT ∧ b.format = CF_UNICODETEXT) ∨
      (a.format = CF_UNICODETEXT ∧ b.format = CF_TEXT))
    (ha : copyOf a ≠ HANDLE.NULL) (hb : copyOf b ≠ HANDLE.NULL) :
    newest (OnClipboardUpdate [a, b] w) = [{ uFormat := a.format, hData := copyOf a }] ∧
    (captureLoop (enumerate [a, b])).reads = [a.format] := by
  have hen : enumerate [a, b] = [a, b] := by
    apply enumerate_of_nonzero
    intro o ho
    simp only [List.mem_cons, List.mem_singleton, List.not_mem_nil, or_false] at ho
    rcases hf with ⟨h1, h2⟩ | ⟨h1, h2⟩ <;> rcases ho with rfl | rfl <;> simp [h1, h2]
  rw [newest_OnClipboardUpdate, hen]
  have h1 : captureStep { format_done := [], n := [], reads := [] } a =
      { format_done := [a.format], n := [{ uFormat := a.format, hData := copyOf a }],
        reads := [a.format] } := by
    rw [captureStep_ok _ a (by simp [skipFormat, contains]) ha]
    simp
  have h2 : captureStep
      { format_done := [a.format], n := [{ uFormat := a.format, hData := copyOf a }],
        reads := [a.format] } b =
      { format_done := [a.format], n := [{ uFormat := a.format, hData := copyOf a }],
        reads := [a.format] } := by
    apply captureStep_skip
    rcases hf with ⟨e1, e2⟩ | ⟨e1, e2⟩ <;> simp [skipFormat, contains, e1, e2]
  simp only [captureLoop, List.foldl_cons, List.foldl_nil, h1, h2, and_self]

/-- Witness of C6: text "hi" and unicode-text "hi", unicode-text first. -/
theorem text_pair_keeps_first_witness :
    newest (OnClipboardUpdate hiClip initialWnd) =
      [{ uFormat := CF_UNICODETEXT, hData := HANDLE.global [104, 0, 105, 0, 0, 0] }] ∧
    (captureLoop (enumerate hiClip)).reads = [CF_UNICODETEXT] :=
  text_pair_keeps_first
    { format := CF_UNICODETEXT, hData := HANDLE.global [104, 0, 105, 0, 0, 0], alloc := true }
    { format := CF_TEXT, hData := HANDLE.global [104, 105, 0], alloc := true }
    initialWnd (Or.inr ⟨rfl, rfl⟩) (by decide) (by decide)

theorem selectFormat_spec (l : List UINT) :
    (∃ pre f post, l = pre ++ f :: post ∧ (∀ g ∈ pre, ¬ g ≤ CF_MAX) ∧ f ≤ CF_MAX ∧
      selectFormat l = f) ∨
    ((∀ g ∈ l, ¬ g ≤ CF_MAX) ∧ selectFormat l = 0) := by
  induction l with
  | nil => exact Or.inr ⟨by simp, rfl⟩
  | cons x rest ih =>
    by_cases hx : x ≤ CF_MAX
    · exact Or.inl ⟨[], x, rest, rfl, by simp, hx, by simp [selectFormat, hx]⟩
    · have hsel : selectFormat (x :: rest) = selectFormat rest := by simp [selectFormat, hx]
      rcases ih with ⟨pre, f, post, h1, h2, h3, h4⟩ | ⟨h1, h2⟩
      · refine Or.inl ⟨x :: pre, f, post, by simp [h1], ?_, h3, by rw [hsel, h4]⟩
        intro g hg
        rcases List.mem_cons.mp hg with rfl | hg
        · exact hx
        · exact h2 g hg
      · refine Or.inr ⟨?_, by rw [hsel, h2]⟩
        intro g hg
        rcases List.mem_cons.mp hg with rfl | hg
        · exact hx
        · exact h1 g hg

/-- C7. After a capture `m_uFormat` is the first enumerated format with id at
most `CF_MAX`: the enumeration splits into formats above `CF_MAX`, then that
format; and it is 0 ("none") when no enumerated format is at most `CF_MAX`.
When the clipboard offers no format, the snapshot is empty and `m_uFormat`
is 0. -/
theorem active_format_first_enumerated (clip : List Offer) (w : RadClipboardViewerWnd) :
    (OnClipboardUpdate clip w).m_formats = (enumerate clip).map Offer.format ∧
    ((∃ pre f post, (OnClipboardUpdate clip w).m_formats = pre ++ f :: post ∧
        (∀ g ∈ pre, ¬ g ≤ CF_MAX) ∧ f ≤ CF_MAX ∧ (OnClipboardUpdate clip w).m_uFormat = f) ∨
      ((∀ g ∈ (OnClipboardUpdate clip w).m_formats, ¬ g ≤ CF_MAX) ∧
        (OnClipboardUpdate clip w).m_uFormat = 0)) ∧
    newest (OnClipboardUpdate [] w) = [] ∧ (OnClipboardUpdate [] w).m_uFormat = 0 := by
  refine ⟨rfl, ?_, rfl, rfl⟩
  exact selectFormat_spec ((enumerate clip).map Offer.format)

theorem selectFormat_eq_find (l : List UINT) :
    selectFormat l = (l.find? (fun f => decide (f ≤ CF_MAX))).getD 0 := by
  induction l with
  | nil => rfl
  | cons x rest ih =>
    by_cases hx : x ≤ CF_MAX
    · simp [selectFormat, hx, List.find?_cons]
    · simp [selectFormat, hx, List.find?_cons, ih]

theorem skipFormat_of_high (fd : List UINT) (h : ∀ f ∈ fd, CF_MAX < f) (f : UINT) :
    skipFormat fd f = false := by
  have hlow : ∀ x, x < CF_MAX → x ∉ fd := fun x hx hmem =>
    Nat.lt_asymm hx (h x hmem)
  have h1 := hlow CF_TEXT (by decide)
  have h2 := hlow CF_UNICODETEXT (by decide)
  have h3 := hlow CF_OEMTEXT (by decide)
  have h4 := hlow CF_BITMAP (by decide)
  have h5 := hlow CF_DIB (by decide)
  have h6 := hlow CF_DIBV5 (by decide)
  have h7 := hlow CF_ENHMETAFILE (by decide)
  have h8 := hlow CF_METAFILEPICT (by decide)
  simp only [skipFormat, contains, h1, h2, h3, h4, h5, h6, h7, h8, decide_False,
    Bool.or_self, ite_self]

/-- While only formats above `CF_MAX` have been captured, the first well-known
format of the final snapshot is the first one offered, provided that one can
be copied. -/
theorem find_foldl (offers : List Offer) (st : CaptureState) (hst : HighOnly st)
    (hok : ∀ o, offers.find? (fun x => decide (x.format ≤ CF_MAX)) = some o →
      copyOf o ≠ HANDLE.NULL) :
    ((offers.foldl captureStep st).n.map HistItem.uFormat).find? (fun f => decide (f ≤ CF_MAX)) =
      (offers.map Offer.format).find? (fun f => decide (f ≤ CF_MAX)) := by
  induction offers generalizing st with
  | nil =>
    simp only [List.foldl_nil, List.map_nil, List.find?_nil, List.find?_eq_none,
      List.mem_map, decide_eq_true_eq, forall_exists_index, and_imp]
    intro f e he hf
    rw [← hf]
    exact Nat.not_le.mpr (hst.2 e he)
  | cons o rest ih =>
    have hskip := skipFormat_of_high st.format_done hst.1 o.format
    by_cases hle : o.format ≤ CF_MAX
    · have hc := hok o (by simp [List.find?_cons, hle])
      obtain ⟨l, h1, _, _⟩ := foldl_n_append rest (captureStep st o)
      rw [List.foldl_cons, h1, captureStep_ok st o hskip hc]
      have hnone : (st.n.map HistItem.uFormat).find? (fun f => decide (f ≤ CF_MAX)) = none := by
        simp only [List.find?_eq_none, List.mem_map, decide_eq_true_eq, forall_exists_index,
          and_imp]
        intro f e he hf
        rw [← hf]
        exact Nat.not_le.mpr (hst.2 e he)
      simp [List.find?_append, hnone, List.find?_cons, hle]
    · have hst2 : HighOnly (captureStep st o) := by
        rcases captureStep_cases st o with ⟨_, e⟩ | ⟨_, _, e⟩ | ⟨_, _, e⟩ <;> rw [e]
        · exact hst
        · exact hst
        · constructor
          · intro f hf
            rcases List.mem_insert_iff.mp hf with rfl | hf
            · exact Nat.lt_of_not_le hle
            · exact hst.1 f hf
          · intro e2 he2
            rcases List.mem_append.mp he2 with he2 | he2
            · exact hst.2 e2 he2
            · simp only [List.mem_singleton] at he2
              subst he2
              exact Nat.lt_of_not_le hle
      have hok2 : ∀ x, rest.find? (fun y => decide (y.format ≤ CF_MAX)) = some x →
          copyOf x ≠ HANDLE.NULL :=
        fun x hx => hok x (by simpa [List.find?_cons, hle] using hx)
      rw [List.foldl_cons, ih _ hst2 hok2]
      simp [List.find?_cons, hle]

/-- C8, as stated, fails. With unicode-text enumerated before a DIB the active
format is unicode-text (13), not the lowest-numbered well-known format of the
snapshot (8); with one registered format the snapshot is not empty and yet the
active format is "none"; with a text that cannot be duplicated the active format
is text although the snapshot holds no well-known format. -/
theorem active_format_not_lowest :
    (OnClipboardUpdate textThenDibClip initialWnd).m_uFormat ≠
      lowestWellKnown (newest (OnClipboardUpdate textThenDibClip initialWnd)) ∧
    ((OnClipboardUpdate customOnlyClip initialWnd).m_uFormat = 0 ∧
      newest (OnClipboardUpdate customOnlyClip initialWnd) ≠ []) ∧
    (OnClipboardUpdate failedTextClip initialWnd).m_uFormat ≠
      lowestWellKnown (newest (OnClipboardUpdate failedTextClip initialWnd)) := by
  decide

/-- C8, amended. After a capture in which the first enumerated format with id
at most `CF_MAX`, if there is one, is duplicated successfully, the active format
is the first format with id at most `CF_MAX` in the order of the newest snapshot
(which is capture order, not numeric order), and it is "none" (0) exactly when
the newest snapshot holds no format with id at most `CF_MAX`. -/
theorem active_format_first_captured (clip : List Offer) (w : RadClipboardViewerWnd)
    (hok : ∀ o, (enumerate clip).find? (fun x => decide (x.format ≤ CF_MAX)) = some o →
      copyOf o ≠ HANDLE.NULL) :
    (OnClipboardUpdate clip w).m_uFormat = firstWellKnown (newest (OnClipboardUpdate clip w)) ∧
    ((OnClipboardUpdate clip w).m_uFormat = 0 ↔
      ∀ e ∈ newest (OnClipboardUpdate clip w), ¬ e.uFormat ≤ CF_MAX) := by
  have hfind := find_foldl (enumerate clip) { format_done := [], n := [], reads := [] }
    ⟨by simp, by simp⟩ hok
  have hm : (OnClipboardUpdate clip w).m_uFormat =
      firstWellKnown (newest (OnClipboardUpdate clip w)) := by
    rw [newest_OnClipboardUpdate]
    unfold firstWellKnown captureLoop
    rw [hfind, ← selectFormat_eq_find]
    rfl
  refine ⟨hm, ?_⟩
  rw [hm, newest_OnClipboardUpdate]
  unfold firstWellKnown
  cases hf : ((captureLoop (enumerate clip)).n.map HistItem.uFormat).find?
      (fun f => decide (f ≤ CF_MAX)) with
  | none =>
    simp only [Option.getD_none, true_iff]
    intro e he
    have := List.find?_eq_none.mp hf e.uFormat (List.mem_map_of_mem _ he)
    simpa using this
  | some f =>
    have hp : f ≤ CF_MAX := by simpa using List.find?_some hf
    have hmem : f ∈ (captureLoop (enumerate clip)).n.map HistItem.uFormat :=
      List.mem_of_find?_eq_some hf
    have hmem2 : f ∈ (enumerate clip).map Offer.format :=
      (captureLoop_sublist (enumerate clip)).subset hmem
    obtain ⟨o, ho, rfl⟩ := List.mem_map.mp hmem2
    have hnz := enumerate_nonzero clip o ho
    obtain ⟨e, he, hef⟩ := List.mem_map.mp hmem
    simp only [Option.getD_some]
    constructor
    · intro h0
      exact absurd h0 hnz
    · intro hall
      exact absurd (by rw [hef]; exact hp) (hall e he)

/-- The condition of the amended C8 cannot be dropped: in an enumeration without
repeated ids, when the first format with id at most `CF_MAX` cannot be
duplicated, the active format is that format and the snapshot does not hold
it. -/
theorem active_format_needs_first_copy (clip : List Offer) (w : RadClipboardViewerWnd)
    (hnd : ((enumerate clip).map Offer.format).Nodup) (o : Offer)
    (hfind : (enumerate clip).find? (fun x => decide (x.format ≤ CF_MAX)) = some o)
    (hc : copyOf o = HANDLE.NULL) :
    (OnClipboardUpdate clip w).m_uFormat = o.format ∧
    o.format ∉ (newest (OnClipboardUpdate clip w)).map HistItem.uFormat ∧
    (OnClipboardUpdate clip w).m_uFormat ≠
      firstWellKnown (newest (OnClipboardUpdate clip w)) := by
  have homem : o ∈ enumerate clip := List.mem_of_find?_eq_some hfind
  have hnz : o.format ≠ 0 := enumerate_nonzero clip o homem
  have hm : (OnClipboardUpdate clip w).m_uFormat = o.format := by
    show selectFormat ((enumerate clip).map Offer.format) = o.format
    rw [selectFormat_eq_find, List.find?_map]
    have : ((fun f => decide (f ≤ CF_MAX)) ∘ Offer.format) =
        (fun x : Offer => decide (x.format ≤ CF_MAX)) := rfl
    rw [this, hfind]
    rfl
  have hnot : o.format ∉ (newest (OnClipboardUpdate clip w)).map HistItem.uFormat := by
    rw [newest_OnClipboardUpdate]
    intro hmem
    obtain ⟨e, he, hef⟩ := List.mem_map.mp hmem
    obtain ⟨o2, ho2, rfl, hne⟩ := captureLoop_entries _ e he
    have heq : o2 = o := List.inj_on_of_nodup_map hnd ho2 homem hef
    rw [heq] at hne
    exact hne hc
  refine ⟨hm, hnot, ?_⟩
  rw [hm]
  unfold firstWellKnown
  cases hf : ((newest (OnClipboardUpdate clip w)).map HistItem.uFormat).find?
      (fun f => decide (f ≤ CF_MAX)) with
  | none => exact hnz
  | some f =>
    intro heq
    simp only [Option.getD_some] at heq
    rw [← heq] at hf
    exact hnot (List.mem_of_find?_eq_some hf)

/-- Witness of C8: unicode-text, then an enhanced metafile that cannot be
duplicated. The first well-known format, unicode-text, is duplicated; it is the
active format and the first well-known format of the snapshot. -/
theorem active_format_first_captured_witness :
    copyOf { format := CF_ENHMETAFILE, hData := HANDLE.object, alloc := true } = HANDLE.NULL ∧
    (OnClipboardUpdate textThenMetafileClip initialWnd).m_uFormat = CF_UNICODETEXT ∧
    (OnClipboardUpdate textThenMetafileClip initialWnd).m_uFormat =
      firstWellKnown (newest (OnClipboardUpdate textThenMetafileClip initialWnd)) ∧
    ((OnClipboardUpdate textThenMetafileClip initialWnd).m_uFormat = 0 ↔
      ∀ e ∈ newest (OnClipboardUpdate textThenMetafileClip initialWnd),
        ¬ e.uFormat ≤ CF_MAX) :=
  ⟨by decide, by decide,
    active_format_first_captured textThenMetafileClip initialWnd (by
      intro o ho
      have hfirst : (enumerate textThenMetafileClip).find?
          (fun x => decide (x.format ≤ CF_MAX)) =
          some { format := CF_UNICODETEXT, hData := HANDLE.global [104, 0, 0, 0],
                 alloc := true } := by decide
      rw [hfirst] at ho
      rw [← Option.some.inj ho]
      decide)⟩

/-! ## Properties of the history menu -/

theorem foldl_SetClipboardData (i cb : List HistItem) :
    i.foldl SetClipboardData cb = cb ++ i := by
  induction i generalizing cb with
  | nil => simp
  | cons e rest ih => simp [List.foldl_cons, ih, SetClipboardData]

/-- Choosing the entry of index `k ≥ 1`: the clipboard is emptied and receives
the pairs of snapshot `k` in order, and that snapshot leaves the history. -/
theorem OnHotKey_restore (c : Bool) (w : RadClipboardViewerWnd) (cb : List HistItem)
    (menu : List (List TCHAR)) (k : Nat) (i : List HistItem)
    (hm : menuLabels c w.m_history = some menu) (hk : 1 ≤ k) (hi : w.m_history[k]? = some i) :
    OnHotKey c HK_HIST (CommandBegin + k) cb w =
      some { menu := menu, clipboard := i,
             wnd := { w with m_history := w.m_history.take k ++ w.m_history.drop (k + 1) } } := by
  have hgt : CommandBegin + k > CommandBegin := by omega
  have hsub : CommandBegin + k - CommandBegin = k := by omega
  simp only [OnHotKey, hm, hgt, hsub, hi, if_true, foldl_SetClipboardData, List.nil_append,
    List.eraseIdx_eq_take_drop_succ]

/-- Choosing the entry of index 0 (command id `CommandBegin`): the test
`Command > CommandBegin` fails and nothing is restored or removed. -/
theorem OnHotKey_first (c : Bool) (w : RadClipboardViewerWnd) (cb : List HistItem)
    (menu : List (List TCHAR)) (hm : menuLabels c w.m_history = some menu) :
    OnHotKey c HK_HIST CommandBegin cb w = some { menu := menu, clipboard := cb, wnd := w } := by
  simp [OnHotKey, hm]

/-- C4, the code at the failing input. With a history of three snapshots,
choosing entry 0 (command id `CommandBegin + 0`) leaves the clipboard and the
history as they were, while choosing entry 1 puts snapshot 1 on the clipboard
and leaves the other two in their order. -/
theorem restore_first_entry_ignored :
    OnHotKey true HK_HIST (CommandBegin + 0) threeClipboard threeHistory =
      some { menu := [TEXT "c", TEXT "b", TEXT "a"], clipboard := threeClipboard,
             wnd := threeHistory } ∧
    OnHotKey true HK_HIST (CommandBegin + 1) threeClipboard threeHistory =
      some { menu := [TEXT "c", TEXT "b", TEXT "a"],
             clipboard := [{ uFormat := CF_TEXT, hData := HANDLE.global [98, 0] }],
             wnd := { threeHistory with
               m_history :=
                 [[{ uFormat := CF_TEXT, hData := HANDLE.global [99, 0] }],
                  [{ uFormat := CF_TEXT, hData := HANDLE.global [97, 0] }]] } } := by
  decide

/-- C10, the code at the failing input. The label of a snapshot whose only
entry is the oem-text "hello" is the fallback "Item: 7": the label switch has
no `case CF_OEMTEXT`. -/
theorem oem_text_label_falls_back (hrContinue : Bool) :
    menuLabel hrContinue oemHello = some (TEXT "Item: 7") ∧
    menuLabel hrContinue oemHello ≠ some (TEXT "hello") := by
  cases hrContinue <;> decide

theorem reads_append (rd : Nat → Option Nat) (a b : List Nat) (p : Nat) :
    Reads rd p (a ++ b) ↔ Reads rd p a ∧ Reads rd (p + a.length) b := by
  induction a generalizing p with
  | nil => simp [Reads]
  | cons x xs ih =>
    have e : p + (x :: xs).length = p + 1 + xs.length := by
      simp only [List.length_cons]
      omega
    rw [e]
    show (rd p = some x ∧ Reads rd (p + 1) (xs ++ b)) ↔ _
    rw [ih (p + 1)]
    simp only [Reads, and_assoc]

theorem getElem?_at_length (pre rest : List Nat) (x : Nat) :
    (pre ++ x :: rest)[pre.length]? = some x := by
  rw [List.getElem?_append_right (Nat.le_refl _)]
  simp

theorem getElem?_at_length_succ (pre rest : List Nat) (x y : Nat) :
    (pre ++ x :: y :: rest)[pre.length + 1]? = some y := by
  rw [List.getElem?_append_right (Nat.le_succ _)]
  simp

theorem getElem?_append_some (m r : List Nat) (k x : Nat) (h : m[k]? = some x) :
    (m ++ r)[k]? = some x := by
  have hk : k < m.length := by
    by_contra hge
    rw [List.getElem?_eq_none (Nat.le_of_not_lt hge)] at h
    exact Option.noConfusion h
  rw [List.getElem?_append_left hk, h]

theorem readWORD_append (m r : List Nat) (off v : Nat) (h : readWORD m off = some v) :
    readWORD (m ++ r) off = some v := by
  unfold readWORD at h ⊢
  cases h1 : m[off]? with
  | none => simp [h1] at h
  | some lo =>
    cases h2 : m[off + 1]? with
    | none => simp [h1, h2] at h
    | some hi =>
      rw [getElem?_append_some m r off lo h1, getElem?_append_some m r (off + 1) hi h2]
      simpa [h1, h2] using h

theorem readDWORD_append (m r : List Nat) (off v : Nat) (h : readDWORD m off = some v) :
    readDWORD (m ++ r) off = some v := by
  unfold readDWORD at h ⊢
  cases h1 : readWORD m off with
  | none => simp [h1] at h
  | some lo =>
    cases h2 : readWORD m (off + 2) with
    | none => simp [h1, h2] at h
    | some hi =>
      rw [readWORD_append m r off lo h1, readWORD_append m r (off + 2) hi h2]
      simpa [h1, h2] using h

/-- A reader of 8-bit characters at byte offset `P` reads the characters
encoded there. -/
theorem reads_narrow (rd : Nat → Option Nat) (m : List BYTE) (P : Nat)
    (hrd : ∀ k, rd k = readBYTE m (P + k)) (cs : List Nat) (pre tail : List BYTE) (p : Nat)
    (hm : m = pre ++ encodeChars false cs ++ tail) (hp : P + p = pre.length) :
    Reads rd p cs := by
  induction cs generalizing pre p with
  | nil => trivial
  | cons c cs ih =>
    refine ⟨?_, ?_⟩
    · rw [hrd, hp, hm]
      have h0 := getElem?_at_length pre (encodeChars false cs ++ tail) c
      simpa [readBYTE, encodeChars] using h0
    · apply ih (pre ++ [c]) (p + 1)
      · rw [hm]
        simp [encodeChars]
      · simp only [List.length_append, List.length_singleton]
        omega

/-- A reader of 16-bit characters at byte offset `P` reads the characters
encoded there. -/
theorem reads_wide (rd : Nat → Option Nat) (m : List BYTE) (P : Nat)
    (hrd : ∀ k, rd k = readWORD m (P + 2 * k)) (cs : List Nat) (pre tail : List BYTE) (p : Nat)
    (hm : m = pre ++ encodeChars true cs ++ tail) (hp : P + 2 * p = pre.length) :
    Reads rd p cs := by
  induction cs generalizing pre p with
  | nil => trivial
  | cons c cs ih =>
    refine ⟨?_, ?_⟩
    · rw [hrd, hp, hm]
      have h0 : (pre ++ encodeChars true (c :: cs) ++ tail)[pre.length]? = some (c % 256) := by
        have := getElem?_at_length pre ((c / 256) :: (encodeChars true cs ++ tail)) (c % 256)
        simpa [encodeChars] using this
      have h1 : (pre ++ encodeChars true (c :: cs) ++ tail)[pre.length + 1]? =
          some (c / 256) := by
        have := getElem?_at_length_succ pre (encodeChars true cs ++ tail) (c % 256) (c / 256)
        simpa [encodeChars] using this
      simp only [readWORD, h0, h1]
      rw [Nat.mod_add_div]
    · apply ih (pre ++ [c % 256, c / 256]) (p + 1)
      · rw [hm]
        simp [encodeChars]
      · simp only [List.length_append, List.length_cons, List.length_nil]
        omega

/-- The length call finds the terminator of an entry shorter than its
bound. -/
theorem StringCchLength_of_reads (rd : Nat → Option Nat) (p : Nat) (str rest : List Nat)
    (hnz : ∀ ch ∈ str, ch ≠ 0) (k cchMax : Nat) (hlen : str.length < cchMax)
    (hr : Reads rd (p + k) (str ++ 0 :: rest)) :
    StringCchLength rd p cchMax k = some (true, k + str.length) := by
  induction str generalizing k cchMax with
  | nil =>
    obtain ⟨n, rfl⟩ : ∃ n, cchMax = n + 1 := ⟨cchMax - 1, by simp at hlen; omega⟩
    have h0 : rd (p + k) = some 0 := hr.1
    simp [StringCchLength, h0]
  | cons ch t ih =>
    obtain ⟨n, rfl⟩ : ∃ n, cchMax = n + 1 := ⟨cchMax - 1, by simp at hlen; omega⟩
    have h0 : rd (p + k) = some ch := hr.1
    have hch : ch ≠ 0 := hnz ch (List.mem_cons_self _ _)
    have hrest : Reads rd (p + (k + 1)) (t ++ 0 :: rest) := hr.2
    have hlt : t.length < n := by
      simp only [List.length_cons] at hlen
      omega
    have := ih (fun x hx => hnz x (List.mem_cons_of_mem _ hx)) (k + 1) n hlt hrest
    simp only [StringCchLength, h0, hch, if_false, this, List.length_cons]
    congr 2
    omega

theorem readChars_of_reads (rd : Nat → Option Nat) (str rest : List Nat) (p : Nat)
    (hr : Reads rd p (str ++ rest)) : readChars rd p str.length = some str := by
  induction str generalizing p with
  | nil => rfl
  | cons ch t ih =>
    have h0 : rd p = some ch := hr.1
    have := ih (p + 1) hr.2
    simp [readChars, h0, this]

theorem precStr_of_reads (rd : Nat → Option Nat) (str rest : List Nat)
    (hnz : ∀ ch ∈ str, ch ≠ 0) (prec k : Nat) (hr : Reads rd k (str ++ 0 :: rest)) :
    precStr rd prec k = some (str.take prec) := by
  induction str generalizing prec k with
  | nil =>
    cases prec with
    | zero => rfl
    | succ n =>
      have h0 : rd k = some 0 := hr.1
      simp [precStr, h0]
  | cons ch t ih =>
    cases prec with
    | zero => rfl
    | succ n =>
      have h0 : rd k = some ch := hr.1
      have hch : ch ≠ 0 := hnz ch (List.mem_cons_self _ _)
      have := ih (fun x hx => hnz x (List.mem_cons_of_mem _ hx)) n (k + 1) hr.2
      simp [precStr, h0, hch, this]

theorem StringCchPrintf_short (cchDest : Nat) (t : List TCHAR) (h : t.length < cchDest) :
    StringCchPrintf cchDest t = t := by
  unfold StringCchPrintf
  apply List.take_of_length_le
  omega

theorem encodeChars_narrow (cs : List Nat) : encodeChars false cs = cs := by
  induction cs with
  | nil => rfl
  | cons c cs ih => simp [encodeChars, ih]

/-- The label of a text or unicode-text entry that holds a non-empty string is
the first 50 characters of the string. -/
theorem text_label (c wide : Bool) (str : List Nat) (tail : List BYTE) (hne : str ≠ [])
    (hnz : ∀ ch ∈ str, ch ≠ 0) :
    menuLabel c [{ uFormat := if wide then CF_UNICODETEXT else CF_TEXT,
                   hData := HANDLE.global (encodeChars wide (str ++ [0]) ++ tail) }] =
      some (str.take 50) := by
  have hshort : (str.take 50).length < 1024 := by
    rw [List.length_take]
    omega
  have hne2 : str.take 50 ≠ [] := by
    cases str with
    | nil => exact absurd rfl hne
    | cons a t => simp
  cases wide with
  | false =>
    have hr : Reads (fun k => readBYTE (encodeChars false (str ++ [0]) ++ tail) k) 0
        (str ++ [0]) :=
      reads_narrow _ (encodeChars false (str ++ [0]) ++ tail) 0 (fun k => by simp) (str ++ [0])
        [] tail 0 (by simp) (by simp)
    have hp := precStr_of_reads _ str [] hnz 50 0 hr
    simp [menuLabel, labelLoop, entryName, GlobalLock, hp, StringCchPrintf_short _ _ hshort,
      hne2]
  | true =>
    have hr : Reads (fun k => readWORD (encodeChars true (str ++ [0]) ++ tail) (2 * k)) 0
        (str ++ [0]) :=
      reads_wide _ (encodeChars true (str ++ [0]) ++ tail) 0 (fun k => by simp) (str ++ [0])
        [] tail 0 (by simp) (by simp)
    have hp := precStr_of_reads _ str [] hnz 50 0 hr
    simp [menuLabel, labelLoop, entryName, GlobalLock, hp, StringCchPrintf_short _ _ hshort,
      hne2]

/-! ## Properties of the file-drop walks -/

/-- The counting walk crosses a well-formed list of short paths and counts
them. -/
theorem countFiles_fileList (c : Bool) (rd : Nat → Option Nat) (paths : List (List Nat))
    (hv : ∀ p ∈ paths, p ≠ [] ∧ ∀ ch ∈ p, ch ≠ 0) (hs : ∀ p ∈ paths, p.length < MAX_PATH)
    (fuel p count : Nat) (hfuel : paths.length < fuel) (hr : Reads rd p (fileListChars paths)) :
    countFiles c rd fuel p count = some (count + paths.length) := by
  induction paths generalizing fuel p count with
  | nil =>
    obtain ⟨n, rfl⟩ : ∃ n, fuel = n + 1 := ⟨fuel - 1, by omega⟩
    have h0 : rd p = some 0 := hr.1
    simp [countFiles, h0]
  | cons q qs ih =>
    obtain ⟨n, rfl⟩ : ∃ n, fuel = n + 1 := ⟨fuel - 1, by omega⟩
    obtain ⟨hq, hqnz⟩ := hv q (List.mem_cons_self _ _)
    have hqs := hs q (List.mem_cons_self _ _)
    have hrq : Reads rd p (q ++ 0 :: fileListChars qs) := hr
    obtain ⟨ch, t, rfl⟩ := List.exists_cons_of_ne_nil hq
    have h0 : rd p = some ch := hrq.1
    have hch : ch ≠ 0 := hqnz ch (List.mem_cons_self _ _)
    have hlen := StringCchLength_of_reads rd p (ch :: t) (fileListChars qs) hqnz 0 MAX_PATH hqs
      (by simpa using hrq)
    have hnext : Reads rd (p + (ch :: t).length + 1) (fileListChars qs) :=
      ((reads_append rd (ch :: t) (0 :: fileListChars qs) p).mp hrq).2.2
    have hrec := ih (fun x hx => hv x (List.mem_cons_of_mem _ hx))
      (fun x hx => hs x (List.mem_cons_of_mem _ hx)) n (p + (ch :: t).length + 1) (count + 1)
      (by simp only [List.length_cons] at hfuel; omega) hnext
    simp only [Nat.zero_add] at hlen
    simp only [countFiles, h0, hch, if_false, hlen, Bool.true_eq_false, false_and]
    rw [hrec]
    simp only [List.length_cons]
    congr 1
    omega

/-- The drawing walk crosses a well-formed list of short paths and draws each
of them whole, in order. -/
theorem drawFiles_fileList (c : Bool) (rd : Nat → Option Nat) (paths : List (List Nat))
    (hv : ∀ p ∈ paths, p ≠ [] ∧ ∀ ch ∈ p, ch ≠ 0) (hs : ∀ p ∈ paths, p.length < MAX_PATH)
    (fuel p : Nat) (hfuel : paths.length < fuel) (hr : Reads rd p (fileListChars paths)) :
    drawFiles c rd fuel p = some paths := by
  induction paths generalizing fuel p with
  | nil =>
    obtain ⟨n, rfl⟩ : ∃ n, fuel = n + 1 := ⟨fuel - 1, by omega⟩
    have h0 : rd p = some 0 := hr.1
    simp [drawFiles, h0]
  | cons q qs ih =>
    obtain ⟨n, rfl⟩ : ∃ n, fuel = n + 1 := ⟨fuel - 1, by omega⟩
    obtain ⟨hq, hqnz⟩ := hv q (List.mem_cons_self _ _)
    have hqs := hs q (List.mem_cons_self _ _)
    have hrq : Reads rd p (q ++ 0 :: fileListChars qs) := hr
    obtain ⟨ch, t, rfl⟩ := List.exists_cons_of_ne_nil hq
    have h0 : rd p = some ch := hrq.1
    have hch : ch ≠ 0 := hqnz ch (List.mem_cons_self _ _)
    have hlen := StringCchLength_of_reads rd p (ch :: t) (fileListChars qs) hqnz 0 MAX_PATH hqs
      (by simpa using hrq)
    have hline := readChars_of_reads rd (ch :: t) (0 :: fileListChars qs) p hrq
    have hnext : Reads rd (p + (ch :: t).length + 1) (fileListChars qs) :=
      ((reads_append rd (ch :: t) (0 :: fileListChars qs) p).mp hrq).2.2
    have hrec := ih (fun x hx => hv x (List.mem_cons_of_mem _ hx))
      (fun x hx => hs x (List.mem_cons_of_mem _ hx)) n (p + (ch :: t).length + 1)
      (by simp only [List.length_cons] at hfuel; omega) hnext
    simp only [Nat.zero_add] at hlen
    simp only [drawFiles, h0, hch, if_false, hlen, Bool.true_eq_false, false_and]
    rw [hline, hrec]

theorem length_encodeChars (wide : Bool) (cs : List Nat) :
    cs.length ≤ (encodeChars wide cs).length := by
  induction cs with
  | nil => simp [encodeChars]
  | cons c cs ih =>
    cases wide <;> simp only [encodeChars, List.length_cons] <;> simp at ih ⊢ <;> omega

theorem length_fileListChars (paths : List (List Nat)) :
    paths.length < (fileListChars paths).length := by
  induction paths with
  | nil => simp [fileListChars]
  | cons q qs ih =>
    simp only [fileListChars, List.length_append, List.length_cons]
    omega

theorem fmtInt_natCast (n : Nat) : fmtInt (n : Int) = fmtUInt n := rfl

theorem length_fmtUInt (n : Nat) (h : n < 2 ^ 31) : (fmtUInt n).length ≤ 10 := by
  have h10 : n < 10 ^ 10 := lt_trans h (by norm_num)
  have hlen : (fmtUInt n).length = (Nat.repr n).length := by
    unfold fmtUInt TEXT
    rw [List.length_map]
    rfl
  rw [hlen]
  exact Nat.repr_length n 10 (by norm_num) h10

theorem filesLabel_fits (n : Nat) (h : n < 2 ^ 31) :
    StringCchPrintf 1024 (fmtUInt n ++ TEXT " Files") = fmtUInt n ++ TEXT " Files" := by
  apply StringCchPrintf_short
  have h1 := length_fmtUInt n h
  have h2 : (TEXT " Files").length = 6 := by decide
  rw [List.length_append, h2]
  omega

theorem filesLabel_ne_nil (n : Nat) :
    StringCchPrintf 1024 (fmtInt (n : Int) ++ TEXT " Files") ≠ [] := by
  unfold StringCchPrintf
  cases fmtInt (n : Int) with
  | nil => decide
  | cons a t => simp

theorem isDropHeader_spec (hdr : List BYTE) (wide : Bool) (h : isDropHeader hdr wide = true) :
    readDWORD hdr 0 = some hdr.length ∧
      ∃ fWide, readDWORD hdr 16 = some fWide ∧ (fWide ≠ 0 ↔ wide = true) := by
  unfold isDropHeader at h
  simp only [Bool.and_eq_true, beq_iff_eq] at h
  refine ⟨h.1, ?_⟩
  cases hw : readDWORD hdr 16 with
  | none => simp [hw] at h
  | some fWide =>
    refine ⟨fWide, rfl, ?_⟩
    have h2 := h.2
    simp only [hw, beq_iff_eq] at h2
    rw [← h2]
    simp

/-- The fuel given to the counting walk never decides its result: past the end
of the block (`bound`) every read fails, and any two amounts of fuel that reach
the end give the same result. -/
theorem countFiles_fuel (c : Bool) (rd : Nat → Option Nat) (bound : Nat)
    (hrd : ∀ q, bound ≤ q → rd q = none) (fuel1 fuel2 p count : Nat)
    (h1 : bound + 1 ≤ p + fuel1) (h2 : bound + 1 ≤ p + fuel2) :
    countFiles c rd fuel1 p count = countFiles c rd fuel2 p count := by
  induction fuel1 generalizing fuel2 p count with
  | zero =>
    have hp : rd p = none := hrd p (by omega)
    cases fuel2 with
    | zero => rfl
    | succ g => simp [countFiles, hp]
  | succ f ih =>
    cases fuel2 with
    | zero =>
      have hp : rd p = none := hrd p (by omega)
      simp [countFiles, hp]
    | succ g =>
      unfold countFiles
      cases hp : rd p with
      | none => rfl
      | some x =>
        by_cases hx : x = 0
        · simp [hx]
        · cases hl : StringCchLength rd p MAX_PATH 0 with
          | none => simp [hx]
          | some r =>
            obtain ⟨ok, len⟩ := r
            by_cases hstop : ok = false ∧ c = false
            · simp [hx, hstop]
            · simp only [hx, if_false, hstop]
              exact ih g (p + len + 1) (count + 1) (by omega) (by omega)

/-- The fuel given to the drawing walk never decides its result. -/
theorem drawFiles_fuel (c : Bool) (rd : Nat → Option Nat) (bound : Nat)
    (hrd : ∀ q, bound ≤ q → rd q = none) (fuel1 fuel2 p : Nat)
    (h1 : bound + 1 ≤ p + fuel1) (h2 : bound + 1 ≤ p + fuel2) :
    drawFiles c rd fuel1 p = drawFiles c rd fuel2 p := by
  induction fuel1 generalizing fuel2 p with
  | zero =>
    have hp : rd p = none := hrd p (by omega)
    cases fuel2 with
    | zero => rfl
    | succ g => simp [drawFiles, hp]
  | succ f ih =>
    cases fuel2 with
    | zero =>
      have hp : rd p = none := hrd p (by omega)
      simp [drawFiles, hp]
    | succ g =>
      unfold drawFiles
      cases hp : rd p with
      | none => rfl
      | some x =>
        by_cases hx : x = 0
        · simp [hx]
        · cases hl : StringCchLength rd p MAX_PATH 0 with
          | none => simp [hx]
          | some r =>
            obtain ⟨ok, len⟩ := r
            by_cases hstop : ok = false ∧ c = false
            · simp [hx, hstop]
            · simp only [hx, if_false, hstop]
              rw [ih g (p + len + 1) (by omega) (by omega)]

/-- Both readers of a block fail from the character index that is the number
of bytes of the block on. -/
theorem readers_fail_past_end (m : List BYTE) (pFiles : Nat) (q : Nat) (h : m.length ≤ q) :
    readWORD m (pFiles + 2 * q) = none ∧ readBYTE m (pFiles + q) = none := by
  have h1 : m[pFiles + 2 * q]? = none := List.getElem?_eq_none (by omega)
  have h2 : m[pFiles + q]? = none := List.getElem?_eq_none (by omega)
  exact ⟨by simp [readWORD, h1], by simp [readBYTE, h2]⟩

/-- The length call fails on an entry that has no terminator within its
bound, and reports the length 0. -/
theorem StringCchLength_too_long (rd : Nat → Option Nat) (p : Nat) (cchMax : Nat)
    (str : List Nat) (k : Nat) (hnz : ∀ ch ∈ str, ch ≠ 0) (hlen : cchMax ≤ str.length)
    (hr : Reads rd (p + k) str) : StringCchLength rd p cchMax k = some (false, 0) := by
  induction cchMax generalizing str k with
  | zero => rfl
  | succ n ih =>
    cases str with
    | nil => simp at hlen
    | cons ch t =>
      have h0 : rd (p + k) = some ch := hr.1
      have hch : ch ≠ 0 := hnz ch (List.mem_cons_self _ _)
      have hlt : n ≤ t.length := by
        simp only [List.length_cons] at hlen
        omega
      have := ih t (k + 1) (fun x hx => hnz x (List.mem_cons_of_mem _ hx)) hlt hr.2
      simp only [StringCchLength, h0, hch, if_false, this]

/-- Both walks of a file-drop payload run over a reader that reads the
characters of the encoded list from the offset `pFiles`. -/
theorem dropPayload_walks (c wide : Bool) (hdr tail : List BYTE) (paths : List (List Nat))
    (hh : isDropHeader hdr wide = true) :
    ∃ rd, Reads rd 0 (fileListChars paths) ∧
      dropFilesCount c (dropPayload hdr wide paths tail) =
        countFiles c rd ((hdr ++ encodeChars wide (fileListChars paths) ++ tail).length + 1)
          0 0 ∧
      OnDraw_CF_HDROP c (dropPayload hdr wide paths tail) =
        drawFiles c rd ((hdr ++ encodeChars wide (fileListChars paths) ++ tail).length + 1) 0 := by
  obtain ⟨hp, fWide, hw, hwide⟩ := isDropHeader_spec hdr wide hh
  have hm : hdr ++ encodeChars wide (fileListChars paths) ++ tail =
      hdr ++ (encodeChars wide (fileListChars paths) ++ tail) := List.append_assoc _ _ _
  have hp2 : readDWORD (hdr ++ encodeChars wide (fileListChars paths) ++ tail) 0 =
      some hdr.length := by
    rw [hm]
    exact readDWORD_append _ _ _ _ hp
  have hw2 : readDWORD (hdr ++ encodeChars wide (fileListChars paths) ++ tail) 16 =
      some fWide := by
    rw [hm]
    exact readDWORD_append _ _ _ _ hw
  cases wide with
  | true =>
    have hnz : fWide ≠ 0 := hwide.mpr rfl
    refine ⟨fun k => readWORD (hdr ++ encodeChars true (fileListChars paths) ++ tail)
      (hdr.length + 2 * k), ?_, ?_, ?_⟩
    · exact reads_wide _ _ hdr.length (fun _ => rfl) (fileListChars paths) hdr tail 0 rfl rfl
    · simp only [dropFilesCount, dropPayload, GlobalLock, hp2, hw2, hnz, ne_eq,
        not_false_eq_true, if_true]
    · simp only [OnDraw_CF_HDROP, dropPayload, GlobalLock, hp2, hw2, hnz, ne_eq,
        not_false_eq_true, if_true]
  | false =>
    have hz : fWide = 0 := by
      by_contra hne
      exact Bool.noConfusion (hwide.mp hne)
    refine ⟨fun k => readBYTE (hdr ++ encodeChars false (fileListChars paths) ++ tail)
      (hdr.length + k), ?_, ?_, ?_⟩
    · exact reads_narrow _ _ hdr.length (fun _ => rfl) (fileListChars paths) hdr tail 0 rfl rfl
    · simp only [dropFilesCount, dropPayload, GlobalLock, hp2, hw2, hz, ne_eq,
        not_true_eq_false, if_false]
    · simp only [OnDraw_CF_HDROP, dropPayload, GlobalLock, hp2, hw2, hz, ne_eq,
        not_true_eq_false, if_false]

theorem menuLabel_of_count (c : Bool) (hData : HANDLE) (n : Nat)
    (h : dropFilesCount c hData = some n) :
    menuLabel c [{ uFormat := CF_HDROP, hData := hData }] =
      some (StringCchPrintf 1024 (fmtUInt n ++ TEXT " Files")) := by
  have hentry : entryName c { uFormat := CF_HDROP, hData := hData } =
      some (some (StringCchPrintf 1024 (fmtInt (n : Int) ++ TEXT " Files"))) := by
    simp [entryName, h]
  simp only [menuLabel, labelLoop, hentry]
  rw [if_neg (filesLabel_ne_nil n), fmtInt_natCast]

theorem menuLabel_of_no_count (c : Bool) (hData : HANDLE) (h : dropFilesCount c hData = none) :
    menuLabel c [{ uFormat := CF_HDROP, hData := hData }] = none := by
  have hentry : entryName c { uFormat := CF_HDROP, hData := hData } = none := by
    simp [entryName, h]
  simp only [menuLabel, labelLoop, hentry]

/-- The walks over a list of one entry of exactly `MAX_PATH` characters: the
length call fails at the start of the entry, the walk steps one character and
then takes the remaining characters for an entry. -/
theorem walks_of_long_entry (rd : Nat → Option Nat) (fuel : Nat) (ch : Nat) (t : List Nat)
    (hnz : ∀ x ∈ ch :: t, x ≠ 0) (hlen : (ch :: t).length = MAX_PATH)
    (hr : Reads rd 0 (fileListChars [ch :: t])) :
    countFiles true rd (fuel + 3) 0 0 = some 2 ∧
    drawFiles true rd (fuel + 3) 0 = some [[], t] ∧
    countFiles false rd (fuel + 3) 0 0 = none ∧
    drawFiles false rd (fuel + 3) 0 = none := by
  have hr2 : Reads rd 0 ((ch :: t) ++ 0 :: [0]) := hr
  have hch : ch ≠ 0 := hnz ch (List.mem_cons_self _ _)
  have hnzt : ∀ x ∈ t, x ≠ 0 := fun x hx => hnz x (List.mem_cons_of_mem _ hx)
  have h0 : rd 0 = some ch := hr2.1
  have hfail : StringCchLength rd 0 MAX_PATH 0 = some (false, 0) :=
    StringCchLength_too_long rd 0 MAX_PATH (ch :: t) 0 hnz (le_of_eq hlen.symm)
      ((reads_append rd _ _ 0).mp hr2).1
  have hrest : Reads rd (1 + 0) (t ++ 0 :: [0]) := hr2.2
  have htlen : t.length < MAX_PATH := by
    simp only [List.length_cons] at hlen
    omega
  have hok : StringCchLength rd 1 MAX_PATH 0 = some (true, 0 + t.length) :=
    StringCchLength_of_reads rd 1 t [0] hnzt 0 MAX_PATH htlen hrest
  have hline : readChars rd 1 t.length = some t :=
    readChars_of_reads rd t (0 :: [0]) 1 hrest
  have hend : rd (1 + t.length) = some 0 :=
    ((reads_append rd t (0 :: [0]) (1 + 0)).mp hrest).2.1
  obtain ⟨c2, t2, rfl⟩ : ∃ c2 t2, t = c2 :: t2 := by
    cases t with
    | nil => simp at hlen
    | cons a b => exact ⟨a, b, rfl⟩
  have h1 : rd 1 = some c2 := hrest.1
  have hc2 : c2 ≠ 0 := hnzt c2 (List.mem_cons_self _ _)
  simp only [Nat.zero_add] at hok
  have hend2 : rd (1 + (c2 :: t2).length + 1) = some 0 := by
    have := ((reads_append rd (c2 :: t2) (0 :: [0]) (1 + 0)).mp hrest).2.2.1
    simpa [Nat.add_assoc] using this
  refine ⟨?_, ?_, ?_, ?_⟩
  · simp only [countFiles, h0, hch, if_false, hfail, Bool.false_eq_true, and_false,
      true_and, Nat.add_zero, Nat.zero_add, h1, hc2, hok, Bool.true_eq_false, false_and, hend2,
      if_true]
  · have hline0 : readChars rd 0 0 = some [] := rfl
    simp only [drawFiles, h0, hch, if_false, hfail, Bool.false_eq_true, and_false,
      true_and, Nat.add_zero, Nat.zero_add, h1, hc2, hok, Bool.true_eq_false, false_and, hend2,
      if_true, hline, hline0]
  · simp [countFiles, h0, hch, hfail]
  · simp [drawFiles, h0, hch, hfail]

/-- C9, as stated, fails for a path as long as `MAX_PATH`. For one path of 260
characters the length call fails and leaves the length 0, so that, when
execution goes on after `CHECK_HR`, the walk steps one character, counts the
remaining 259 characters as a second entry, labels the item "2 Files" and draws
an empty line and a 259-character line; when execution stops at `CHECK_HR`
there is no label and no line. Either way the label is not "1 Files" and the
lines drawn are not the path. -/
theorem file_drop_long_path_miscounted :
    isDropHeader wideHeader true = true ∧ ValidPaths true longPath ∧
    menuLabel true [{ uFormat := CF_HDROP, hData := dropPayload wideHeader true longPath [] }] =
      some (TEXT "2 Files") ∧
    OnDraw_CF_HDROP true (dropPayload wideHeader true longPath []) =
      some [[], List.replicate 259 97] ∧
    menuLabel false [{ uFormat := CF_HDROP, hData := dropPayload wideHeader true longPath [] }] =
      none ∧
    OnDraw_CF_HDROP false (dropPayload wideHeader true longPath []) = none ∧
    some (TEXT "2 Files") ≠ some (StringCchPrintf 1024 (fmtUInt longPath.length ++ TEXT " Files")) ∧
    some [[], List.replicate 259 97] ≠ some longPath := by
  have hh : isDropHeader wideHeader true = true := by decide
  have hlong : longPath = [97 :: List.replicate 259 97] := rfl
  have hnz : ∀ x ∈ 97 :: List.replicate 259 97, x ≠ 0 := by
    intro x hx
    rcases List.mem_cons.mp hx with rfl | hx
    · decide
    · rw [List.eq_of_mem_replicate hx]
      decide
  have hlen : (97 :: List.replicate 259 97).length = MAX_PATH := by
    rw [List.length_cons, List.length_replicate]
  obtain ⟨rd1, hr1, hc1, hd1⟩ := dropPayload_walks true true wideHeader [] longPath hh
  obtain ⟨rd2, hr2, hc2, hd2⟩ := dropPayload_walks false true wideHeader [] longPath hh
  obtain ⟨f, hf⟩ : ∃ f,
      (wideHeader ++ encodeChars true (fileListChars longPath) ++ []).length + 1 = f + 3 := by
    refine ⟨(wideHeader ++ encodeChars true (fileListChars longPath) ++ []).length - 2, ?_⟩
    have h20 : wideHeader.length = 20 := rfl
    simp only [List.length_append, h20]
    omega
  rw [hf] at hc1 hd1 hc2 hd2
  rw [hlong] at hr1 hr2
  have w1 := walks_of_long_entry rd1 f 97 _ hnz hlen hr1
  have w2 := walks_of_long_entry rd2 f 97 _ hnz hlen hr2
  rw [w1.1] at hc1
  rw [w1.2.1] at hd1
  rw [w2.2.2.1] at hc2
  rw [w2.2.2.2] at hd2
  refine ⟨hh, ?_, ?_, hd1, menuLabel_of_no_count _ _ hc2, hd2, ?_, ?_⟩
  · intro p hp
    rw [hlong] at hp
    simp only [List.mem_singleton] at hp
    subst hp
    refine ⟨List.cons_ne_nil _ _, ?_⟩
    intro x hx
    rcases List.mem_cons.mp hx with rfl | hx
    · decide
    · rw [List.eq_of_mem_replicate hx]
      decide
  · rw [menuLabel_of_count _ _ 2 hc1]
    decide
  · decide
  · intro h
    rw [hlong] at h
    injection h with h
    injection h with h1 _
    exact List.noConfusion h1

/-- C9, amended. For every list of n non-empty paths, each shorter than
`MAX_PATH` (260) characters, encoded as a file-drop payload (16-bit or 8-bit
entries, each followed by its terminator, an empty entry at the end, starting at
offset `pFiles`), the summary walk of `OnHotKey` counts n, the label is what
`StringCchPrintf` makes of `"%d Files"` for n, which is n in decimal followed by
" Files" for every n in the range of the `int` counter, and the render walk of
`OnDraw` draws exactly those n paths, in order, each with its full length. -/
theorem file_drop_walks (hrContinue wide : Bool) (hdr tail : List BYTE)
    (paths : List (List Nat)) (hh : isDropHeader hdr wide = true) (hv : ValidPaths wide paths)
    (hs : ∀ p ∈ paths, p.length < MAX_PATH) :
    dropFilesCount hrContinue (dropPayload hdr wide paths tail) = some paths.length ∧
    menuLabel hrContinue [{ uFormat := CF_HDROP, hData := dropPayload hdr wide paths tail }] =
      some (StringCchPrintf 1024 (fmtUInt paths.length ++ TEXT " Files")) ∧
    (paths.length < 2 ^ 31 →
      menuLabel hrContinue [{ uFormat := CF_HDROP, hData := dropPayload hdr wide paths tail }] =
        some (fmtUInt paths.length ++ TEXT " Files")) ∧
    OnDraw_CF_HDROP hrContinue (dropPayload hdr wide paths tail) = some paths := by
  have hv2 : ∀ p ∈ paths, p ≠ [] ∧ ∀ ch ∈ p, ch ≠ 0 :=
    fun p hp => ⟨(hv p hp).1, fun ch hch => ((hv p hp).2 ch hch).1⟩
  have hfuel : paths.length <
      (hdr ++ encodeChars wide (fileListChars paths) ++ tail).length + 1 := by
    have h1 := length_encodeChars wide (fileListChars paths)
    have h2 := length_fileListChars paths
    simp only [List.length_append]
    omega
  obtain ⟨rd, hr, hc, hd⟩ := dropPayload_walks hrContinue wide hdr tail paths hh
  have hcount : dropFilesCount hrContinue (dropPayload hdr wide paths tail) =
      some paths.length := by
    rw [hc, countFiles_fileList hrContinue rd paths hv2 hs _ 0 0 hfuel hr, Nat.zero_add]
  refine ⟨hcount, menuLabel_of_count _ _ _ hcount, ?_, ?_⟩
  · intro hn
    rw [menuLabel_of_count _ _ _ hcount, filesLabel_fits _ hn]
  · rw [hd, drawFiles_fileList hrContinue rd paths hv2 hs _ 0 hfuel hr]

/-- Witness of C9: the two UTF-16 paths `C:\a.txt` and `C:\b.txt` give the
label "2 Files" and two lines, the paths. -/
theorem file_drop_walks_witness :
    (isDropHeader wideHeader true = true ∧ ValidPaths true twoPaths ∧
      ∀ p ∈ twoPaths, p.length < MAX_PATH) ∧
    menuLabel true [{ uFormat := CF_HDROP, hData := dropPayload wideHeader true twoPaths [] }] =
      some (TEXT "2 Files") ∧
    OnDraw_CF_HDROP true (dropPayload wideHeader true twoPaths []) =
      some [TEXT "C:\\a.txt", TEXT "C:\\b.txt"] :=
  have hv : ValidPaths true twoPaths := by
    unfold ValidPaths
    decide
  have hs : ∀ p ∈ twoPaths, p.length < MAX_PATH := by decide
  have h := file_drop_walks true true wideHeader [] twoPaths (by decide) hv hs
  ⟨⟨by decide, hv, hs⟩, h.2.1.trans (by decide), h.2.2.2⟩

/-! ## Properties of the hex dump -/

set_option maxRecDepth 20000 in
theorem fmt02X_of_byte :
    ∀ b, b < 256 → fmt02X b = [hexDigitUpper (b / 16), hexDigitUpper (b % 16)] := by
  decide

theorem printf_hex_of_byte (b : Nat) (h : b < 256) :
    StringCchPrintf 100 (TEXT " " ++ fmt02X b) = hexPair b := by
  rw [fmt02X_of_byte b h]
  rfl

theorem isprint_iff (b : Nat) :
    (if isprint b then b else 46) = printableOrDot b := by
  unfold isprint printableOrDot
  by_cases h : 32 ≤ b ∧ b ≤ 126 <;> simp [h]

theorem getD_mem (l : List Nat) (k : Nat) (h : k < l.length) : l.getD k 0 ∈ l := by
  have : l.getD k 0 = l[k] := by simp [List.getD, List.getElem?_eq_getElem h]
  rw [this]
  exact List.getElem_mem h

theorem drop_eq_getD_cons (l : List Nat) (k : Nat) (h : k < l.length) :
    l.drop k = l.getD k 0 :: l.drop (k + 1) := by
  have : l.getD k 0 = l[k] := by simp [List.getD, List.getElem?_eq_getElem h]
  rw [this]
  exact List.drop_eq_getElem_cons h

/-- The first inner loop prints the hex pairs of the bytes from `i + j` on, as
many as rounds are left. -/
theorem hexLoop_eq (pData : List BYTE) (hb : ∀ b ∈ pData, b < 256) (i left j : Nat) :
    hexLoop pData pData.length i left j = ((pData.drop (i + j)).take left).flatMap hexPair := by
  induction left generalizing j with
  | zero => simp [hexLoop]
  | succ n ih =>
    unfold hexLoop
    by_cases h : i + j < pData.length
    · rw [if_pos h, printf_hex_of_byte _ (hb _ (getD_mem pData (i + j) h)), ih (j + 1),
        drop_eq_getD_cons pData (i + j) h]
      simp [List.flatMap_cons, Nat.add_assoc]
    · rw [if_neg h, List.drop_eq_nil_of_le (Nat.le_of_not_lt h)]
      simp

/-- The second inner loop prints one character for each of the same bytes. -/
theorem asciiLoop_eq (pData : List BYTE) (i left j : Nat) :
    asciiLoop pData pData.length i left j =
      ((pData.drop (i + j)).take left).map printableOrDot := by
  induction left generalizing j with
  | zero => simp [asciiLoop]
  | succ n ih =>
    unfold asciiLoop
    by_cases h : i + j < pData.length
    · rw [if_pos h, isprint_iff, ih (j + 1), drop_eq_getD_cons pData (i + j) h]
      simp [Nat.add_assoc]
    · rw [if_neg h, List.drop_eq_nil_of_le (Nat.le_of_not_lt h)]
      simp

/-- The outer loop, started at a multiple of 16 with enough fuel, builds the
remaining lines of the dump. -/
theorem dumpLoop_eq (bytes : List BYTE) (hb : ∀ b ∈ bytes, b < 256) (fuel k : Nat)
    (hfuel : bytes.length ≤ 16 * k + 16 * fuel) :
    dumpLoop bytes bytes.length fuel (16 * k) =
      (List.range' k ((bytes.length + 15) / 16 - k)).flatMap (specLine bytes) := by
  induction fuel generalizing k with
  | zero =>
    have h0 : (bytes.length + 15) / 16 - k = 0 := by omega
    rw [h0]
    rfl
  | succ n ih =>
    unfold dumpLoop
    by_cases h : 16 * k < bytes.length
    · have ht : (bytes.length + 15) / 16 - k = ((bytes.length + 15) / 16 - (k + 1)) + 1 := by
        omega
      have e : 16 * k + 16 = 16 * (k + 1) := by omega
      rw [if_pos h, ht, List.range'_succ, List.flatMap_cons, hexLoop_eq bytes hb,
        asciiLoop_eq, e, ih (k + 1) (by omega)]
      simp [specLine, lineBytes]
    · have h0 : (bytes.length + 15) / 16 - k = 0 := by omega
      rw [if_neg h, h0]
      rfl

/-- The lines from `k` on hold, between them, the bytes from position `16 k`
on, each once and in order. -/
theorem lines_cover (bytes : List BYTE) (m k : Nat) (hm : (bytes.length + 15) / 16 - k = m) :
    (List.range' k m).flatMap (lineBytes bytes) = bytes.drop (16 * k) := by
  induction m generalizing k with
  | zero =>
    rw [List.drop_eq_nil_of_le (by omega)]
    rfl
  | succ n ih =>
    have e : 16 * (k + 1) = 16 * k + 16 := by omega
    rw [List.range'_succ, List.flatMap_cons, ih (k + 1) (by omega), lineBytes, e,
      ← List.drop_drop, List.take_append_drop]

theorem hexVal_hexDigitUpper (d : Nat) (h : d < 16) : hexVal (hexDigitUpper d) = d := by
  unfold hexVal hexDigitUpper
  by_cases h10 : d < 10
  · rw [if_pos h10, if_pos (by omega)]
    omega
  · rw [if_neg h10, if_neg (by omega)]
    omega

theorem undump_nil (st : DumpState) : undump st [] = [] := by
  cases st <;> rfl

/-- The reader takes the bytes of a hex group back. -/
theorem undump_hex (bs : List BYTE) (hb : ∀ b ∈ bs, b < 256) (rest : List TCHAR) :
    undump DumpState.start (bs.flatMap hexPair ++ rest) = bs ++ undump DumpState.start rest := by
  induction bs with
  | nil => rfl
  | cons b t ih =>
    have hlt : (b : Nat) < (256 : Nat) := hb b (List.mem_cons_self _ _)
    have h1 : hexVal (hexDigitUpper (b / 16)) = b / 16 :=
      hexVal_hexDigitUpper _ (Nat.div_lt_of_lt_mul hlt)
    have h2 : hexVal (hexDigitUpper (b % 16)) = b % 16 :=
      hexVal_hexDigitUpper _ (Nat.mod_lt b (by decide))
    have hval : 16 * (b / 16) + b % 16 = b := Nat.div_add_mod b 16
    simp only [List.flatMap_cons, hexPair, List.cons_append, List.nil_append, undump, if_true,
      h1, h2, hval]
    rw [← ih (fun x hx => hb x (List.mem_cons_of_mem _ hx))]
    rfl

theorem undump_skip (l rest : List TCHAR) (h : ∀ c ∈ l, c ≠ 10) :
    undump DumpState.skip (l ++ rest) = undump DumpState.skip rest := by
  induction l with
  | nil => rfl
  | cons c t ih =>
    have hc : c ≠ 10 := h c (List.mem_cons_self _ _)
    simp only [List.cons_append, undump, hc, if_false]
    exact ih (fun x hx => h x (List.mem_cons_of_mem _ hx))

theorem printableOrDot_ne_newline (b : Nat) : printableOrDot b ≠ 10 := by
  unfold printableOrDot
  by_cases h : 32 ≤ b ∧ b ≤ 126
  · rw [if_pos h]
    omega
  · rw [if_neg h]
    decide

/-- The reader takes the bytes of one line back and is skipping again at its
end. -/
theorem undump_line (bytes : List BYTE) (hb : ∀ b ∈ bytes, b < 256) (k : Nat)
    (rest : List TCHAR) :
    undump DumpState.skip (specLine bytes k ++ rest) =
      lineBytes bytes k ++ undump DumpState.skip rest := by
  have hmem : ∀ b ∈ lineBytes bytes k, b < 256 := fun b hbm =>
    hb b (List.mem_of_mem_drop (List.mem_of_mem_take hbm))
  have hshape : specLine bytes k ++ rest =
      10 :: ((lineBytes bytes k).flatMap hexPair ++
        9 :: ((lineBytes bytes k).map printableOrDot ++ rest)) := by
    simp [specLine]
  have hstart : undump DumpState.start (9 :: ((lineBytes bytes k).map printableOrDot ++ rest)) =
      undump DumpState.skip ((lineBytes bytes k).map printableOrDot ++ rest) := by
    simp [undump]
  rw [hshape]
  simp only [undump, if_true]
  rw [undump_hex _ hmem, hstart, undump_skip]
  intro c hc
  obtain ⟨b, _, rfl⟩ := List.mem_map.mp hc
  exact printableOrDot_ne_newline b

/-- The reader takes the bytes of the lines from `k` on back. -/
theorem undump_lines (bytes : List BYTE) (hb : ∀ b ∈ bytes, b < 256) (m k : Nat)
    (hm : (bytes.length + 15) / 16 - k = m) :
    undump DumpState.skip ((List.range' k m).flatMap (specLine bytes)) =
      bytes.drop (16 * k) := by
  induction m generalizing k with
  | zero =>
    rw [List.drop_eq_nil_of_le (by omega)]
    rfl
  | succ n ih =>
    have e : 16 * (k + 1) = 16 * k + 16 := by omega
    rw [List.range'_succ, List.flatMap_cons, undump_line bytes hb, ih (k + 1) (by omega),
      lineBytes, e, ← List.drop_drop, List.take_append_drop]

theorem buildDump_eq (regName : UINT → List TCHAR) (f : UINT) (bytes : List BYTE)
    (hb : ∀ b ∈ bytes, b < 256) :
    buildDump regName f (HANDLE.global bytes) = specDump (GetFormatName regName f) bytes := by
  have h := dumpLoop_eq bytes hb bytes.length 0 (by omega)
  simp only [Nat.mul_zero, Nat.sub_zero] at h
  unfold buildDump specDump dumpBody
  rw [List.range_eq_range']
  simp only [GlobalSize, lockedBytes, h]

theorem hexDigitUpper_ge (d : Nat) : 48 ≤ hexDigitUpper d := by
  unfold hexDigitUpper
  by_cases h : d < 10
  · rw [if_pos h]
    omega
  · rw [if_neg h]
    omega

/-- Each line holds one newline, its first character. -/
theorem count_newline_line (bytes : List BYTE) (k : Nat) : (specLine bytes k).count 10 = 1 := by
  have hhex : ((lineBytes bytes k).flatMap hexPair).count 10 = 0 := by
    rw [List.count_eq_zero]
    intro hmem
    obtain ⟨b, _, hb10⟩ := List.mem_flatMap.mp hmem
    simp only [hexPair, List.mem_cons, List.mem_singleton, List.not_mem_nil, or_false] at hb10
    have h1 := hexDigitUpper_ge (b / 16)
    have h2 := hexDigitUpper_ge (b % 16)
    rcases hb10 with h | h | h
    · exact absurd h (by decide)
    · rw [← h] at h1
      exact absurd h1 (by decide)
    · rw [← h] at h2
      exact absurd h2 (by decide)
  have hascii : ((lineBytes bytes k).map printableOrDot).count 10 = 0 := by
    rw [List.count_eq_zero]
    intro hmem
    obtain ⟨b, _, hb10⟩ := List.mem_map.mp hmem
    exact printableOrDot_ne_newline b hb10
  have h9 : ([9] : List Nat).count 10 = 0 := by decide
  have h10 : ([10] : List Nat).count 10 = 1 := by decide
  unfold specLine
  rw [List.count_append, List.count_append, List.count_append, hhex, hascii, h9, h10]

theorem count_newline_lines (bytes : List BYTE) (m k : Nat) :
    ((List.range' k m).flatMap (specLine bytes)).count 10 = m := by
  induction m generalizing k with
  | zero => rfl
  | succ n ih =>
    rw [List.range'_succ, List.flatMap_cons, List.count_append, count_newline_line, ih (k + 1)]
    omega

theorem isUnknownFormat_spec (reg : Registered) (f : UINT) (h : isUnknownFormat reg f = true) :
    f ≠ 0 ∧ aliasFormat reg f ≠ CF_OEMTEXT ∧ aliasFormat reg f ≠ CF_TEXT ∧
    aliasFormat reg f ≠ CF_UNICODETEXT ∧ aliasFormat reg f ≠ CF_BITMAP ∧
    aliasFormat reg f ≠ CF_DIB ∧ aliasFormat reg f ≠ CF_DIBV5 ∧
    aliasFormat reg f ≠ CF_ENHMETAFILE ∧ aliasFormat reg f ≠ CF_OWNERDISPLAY ∧
    aliasFormat reg f ≠ CF_LOCALE ∧ aliasFormat reg f ≠ CF_HDROP := by
  unfold isUnknownFormat at h
  simp only [Bool.and_eq_true, decide_eq_true_eq, List.mem_cons, List.mem_singleton,
    List.not_mem_nil, or_false, not_or] at h
  exact ⟨h.1, h.2⟩

/-- A text whose handle cannot be locked is not drawn: the guard `if (pStr)`
skips `DrawText`, and the cache is untouched. -/
theorem OnDraw_text_not_locked (c : Bool) :
    OnDraw sampleRegistered sampleName c HANDLE.object
        { sampleDumpWnd with m_uFormat := CF_TEXT } =
      some (Drawn.nothing, { sampleDumpWnd with m_uFormat := CF_TEXT }) ∧
    OnDraw sampleRegistered sampleName c HANDLE.object
        { sampleDumpWnd with m_uFormat := CF_UNICODETEXT } =
      some (Drawn.nothing, { sampleDumpWnd with m_uFormat := CF_UNICODETEXT }) := by
  cases c <;> decide

/-- For an unknown format and an empty cache `OnDraw` builds the dump and
keeps it in `m_text`. -/
theorem OnDraw_unknown (reg : Registered) (regName : UINT → List TCHAR) (c : Bool)
    (hData : HANDLE) (w : RadClipboardViewerWnd) (hn : hData ≠ HANDLE.NULL)
    (hf : isUnknownFormat reg w.m_uFormat = true) (he : w.m_text = []) :
    OnDraw reg regName c hData w =
      some (Drawn.dump (buildDump regName w.m_uFormat hData),
        { w with m_text := buildDump regName w.m_uFormat hData }) := by
  obtain ⟨h0, h1, h2, h3, h4, h5, h6, h7, h8, h9, h10⟩ := isUnknownFormat_spec reg _ hf
  simp only [OnDraw, h0, hn, h1, h2, h3, h4, h5, h6, h7, h8, h9, h10, he, if_false, if_true]

/-- C11. For a payload of n bytes shown under an unknown format, the text that
`OnDraw` builds (the cache being empty) is the header "Unknown format: " and
the name of the format, followed by `⌈n / 16⌉` lines, one newline each; line k
is a newline, a space and two upper-case hex digits for each byte at the
positions 16 k to min (16 k + 16) n - 1, a tab, and for each of the same bytes
the byte itself if it is printable ASCII, a dot otherwise. The hex groups hold
every byte once, in order, and a reader of the lines gets the payload back. -/
theorem hex_dump_of_unknown_format (reg : Registered) (regName : UINT → List TCHAR)
    (hrContinue : Bool) (w : RadClipboardViewerWnd) (bytes : List BYTE)
    (hf : isUnknownFormat reg w.m_uFormat = true) (he : w.m_text = [])
    (hb : ∀ b ∈ bytes, b < 256) :
    OnDraw reg regName hrContinue (HANDLE.global bytes) w =
      some (Drawn.dump (specDump (GetFormatName regName w.m_uFormat) bytes),
        { w with m_text := specDump (GetFormatName regName w.m_uFormat) bytes }) ∧
    (dumpBody bytes).count 10 = (bytes.length + 15) / 16 ∧
    (List.range ((bytes.length + 15) / 16)).flatMap (lineBytes bytes) = bytes ∧
    undump DumpState.skip (dumpBody bytes) = bytes := by
  refine ⟨?_, ?_, ?_, ?_⟩
  · rw [OnDraw_unknown reg regName hrContinue _ w (fun h => HANDLE.noConfusion h) hf he,
      buildDump_eq regName _ bytes hb]
  · unfold dumpBody
    rw [List.range_eq_range']
    exact count_newline_lines bytes _ 0
  · rw [List.range_eq_range', lines_cover bytes _ 0 (Nat.sub_zero _)]
    rfl
  · unfold dumpBody
    rw [List.range_eq_range', undump_lines bytes hb _ 0 (Nat.sub_zero _)]
    rfl

/-- Witness of C11: 17 bytes under the registered format 49400 make a dump of
two lines, and the reader gets the 17 bytes back. -/
theorem hex_dump_of_unknown_format_witness :
    (isUnknownFormat sampleRegistered sampleDumpWnd.m_uFormat = true ∧
      sampleDumpWnd.m_text = [] ∧ ∀ b ∈ sampleDumpBytes, b < 256) ∧
    (OnDraw sampleRegistered sampleName true (HANDLE.global sampleDumpBytes)
      sampleDumpWnd).map (fun r => r.1) =
      some (Drawn.dump (TEXT ("Unknown format: My Format" ++
        "\n 48 69 00 FF 01 01 01 01 01 01 01 01 01 01 01 01\tHi.............." ++
        "\n 41\tA"))) ∧
    undump DumpState.skip (dumpBody sampleDumpBytes) = sampleDumpBytes :=
  have hf : isUnknownFormat sampleRegistered sampleDumpWnd.m_uFormat = true := by decide
  have hb : ∀ b ∈ sampleDumpBytes, b < 256 := by decide
  have h := hex_dump_of_unknown_format sampleRegistered sampleName true sampleDumpWnd
    sampleDumpBytes hf rfl hb
  ⟨⟨hf, rfl, hb⟩, by rw [h.1]; decide, h.2.2.2⟩

/-! ## The label of an empty snapshot -/

/-- The fallback takes `front()` of an empty snapshot exactly when the
snapshot is empty: the loop has nothing to run over and leaves `name` empty. -/
theorem frontOfEmpty_iff (c : Bool) (i : List HistItem) : FrontOfEmpty c i ↔ i = [] := by
  constructor
  · exact fun h => h.2
  · intro h
    subst h
    exact ⟨rfl, rfl⟩

/-- The label of a snapshot that is not empty never takes `front()` of an
empty vector: when the loop ends with an empty `name`, the fallback prints the
format of the first entry. -/
theorem menuLabel_fallback (c : Bool) (e : HistItem) (rest : List HistItem)
    (h : labelLoop c (e :: rest) = some []) :
    menuLabel c (e :: rest) = some (StringCchPrintf 1024 (TEXT "Item: " ++ fmtUInt e.uFormat)) := by
  simp [menuLabel, h]

/-- A capture in which no duplication succeeds, that of an empty clipboard
among them, pushes an empty snapshot. -/
theorem capture_all_failed_is_empty (clip : List Offer) (w : RadClipboardViewerWnd)
    (h : ∀ o ∈ enumerate clip, copyOf o = HANDLE.NULL) :
    newest (OnClipboardUpdate clip w) = [] := by
  rw [newest_OnClipboardUpdate]
  cases hn : (captureLoop (enumerate clip)).n with
  | nil => rfl
  | cons e rest =>
    have he : e ∈ (captureLoop (enumerate clip)).n := by
      rw [hn]
      exact List.mem_cons_self _ _
    obtain ⟨o, ho, _, hne⟩ := captureLoop_entries _ e he
    exact absurd (h o ho) hne

/-- While an empty snapshot is in the history, building the menu is
undefined. -/
theorem menuLabels_of_empty_mem (c : Bool) (history : List (List HistItem))
    (h : [] ∈ history) : menuLabels c history = none := by
  induction history with
  | nil => simp at h
  | cons i rest ih =>
    rcases List.mem_cons.mp h with h0 | hr
    · subst h0
      simp [menuLabels, menuLabel, labelLoop]
    · have := ih hr
      unfold menuLabels
      rw [this]
      cases menuLabel c i <;> rfl

/-- C12, the code at the failing input. A program started on an empty
clipboard is in a reachable state whose history holds an empty snapshot; so is
one started on a clipboard whose only format cannot be duplicated. For that
snapshot the label loop leaves `name` empty and the fallback takes `front()` of
the empty snapshot: the label is undefined, and so is `OnHotKey` as a whole. -/
theorem empty_snapshot_label_takes_front (hrContinue : Bool) :
    Reachable (OnClipboardUpdate [] initialWnd) ∧
    (OnClipboardUpdate [] initialWnd).m_history = [[]] ∧
    FrontOfEmpty hrContinue (newest (OnClipboardUpdate [] initialWnd)) ∧
    menuLabel hrContinue (newest (OnClipboardUpdate [] initialWnd)) = none ∧
    OnHotKey hrContinue HK_HIST 0 [] (OnClipboardUpdate [] initialWnd) = none ∧
    Reachable (OnClipboardUpdate allFailClip initialWnd) ∧
    (OnClipboardUpdate allFailClip initialWnd).m_history = [[]] ∧
    FrontOfEmpty hrContinue (newest (OnClipboardUpdate allFailClip initialWnd)) ∧
    OnHotKey hrContinue HK_HIST 0 [] (OnClipboardUpdate allFailClip initialWnd) = none := by
  refine ⟨Reachable.create [], rfl, ⟨rfl, rfl⟩, rfl, ?_, Reachable.create allFailClip, ?_,
    ⟨?_, ?_⟩, ?_⟩
  · cases hrContinue <;> rfl
  · decide
  · have h : newest (OnClipboardUpdate allFailClip initialWnd) = [] := by decide
    rw [h]
    rfl
  · decide
  · cases hrContinue <;> decide

end RadClipboard
